import Mathlib

/-!
Verification development for the job-scheduling and media-acquisition core
(app/task_queue.py and app/downloaders.py).

Shallow embedding conventions:
* machine integers and byte counters are Nat (Python ints are unbounded);
* time.time() float timestamps are modelled as Nat tick counts — only their
  ordering is ever used by the code;
* opaque payloads (exception messages, ETag validators, task results) are
  modelled as Nat codes;
* coroutines submitted to the queue are modelled by their observable outcome
  (return, raise, timeout, cancellation) rather than by executable closures.
-/

namespace AiVera

/-- Job lifecycle status, as the status strings of app/task_queue.py. -/
inductive Status
  | queued
  | processing
  | completed
  | failed
  | canceled
deriving DecidableEq

/-- Error payload stored in a record's error field.  The source stores strings
(f"timeout({t}s)", str(e), "canceled"); they are kept as distinct symbolic
values with messages abstracted as numeric codes. -/
inductive ErrPayload
  | timeoutMark (t : Option Nat)
  | msg (m : Nat)
  | canceledMark
deriving DecidableEq

/-- Abstract behaviour of a submitted coroutine func(*args, **kwargs): it
returns a value, raises an exception carrying a message, hits
asyncio.TimeoutError, or observes asyncio.CancelledError while running. -/
inductive Outcome
  | ok (v : Nat)
  | raises (m : Nat)
  | timesOut
  | canceledRun
deriving DecidableEq

/-- One heap entry (class _PQItem).  The dataclass compares only
(prio, created_ts, seq); id/func/args/kwargs/timeout carry compare=False.
func/args/kwargs are abstracted into the job's outcome. -/
structure PQItem where
  prio : Int
  created_ts : Nat
  seq : Nat
  id : Nat
  outcome : Outcome
  timeout : Option Nat
deriving DecidableEq

/-- The comparison key of a _PQItem: lexicographic on (prio, created_ts, seq),
exactly the order=True dataclass ordering. -/
def keyOf (a : PQItem) : Int ×ₗ Nat ×ₗ Nat :=
  toLex (a.prio, toLex (a.created_ts, a.seq))

/-- The strict dataclass order used by the heap. -/
def itemLt (a b : PQItem) : Prop := keyOf a < keyOf b

instance (a b : PQItem) : Decidable (itemLt a b) := by
  unfold itemLt; infer_instance

theorem itemLt_irrefl (a : PQItem) : ¬ itemLt a a := lt_irrefl _

theorem itemLt_trans {a b c : PQItem} (h1 : itemLt a b) (h2 : itemLt b c) :
    itemLt a c := lt_trans h1 h2

theorem itemLt_of_prio_lt {a b : PQItem} (h : a.prio < b.prio) : itemLt a b := by
  unfold itemLt keyOf
  exact (Prod.Lex.lt_iff _ _).mpr (Or.inl h)

theorem itemLt_of_prio_eq {a b : PQItem} (hp : a.prio = b.prio)
    (hts : a.created_ts ≤ b.created_ts) (hs : a.seq < b.seq) : itemLt a b := by
  unfold itemLt keyOf
  refine (Prod.Lex.lt_iff _ _).mpr (Or.inr ⟨hp, ?_⟩)
  rcases lt_or_eq_of_le hts with h | h
  · exact (Prod.Lex.lt_iff _ _).mpr (Or.inl h)
  · exact (Prod.Lex.lt_iff _ _).mpr (Or.inr ⟨h, hs⟩)

theorem ne_of_itemLt {a b : PQItem} (h : itemLt a b) : a ≠ b := by
  rintro rfl; exact itemLt_irrefl a h

/-- The minimum entry of the heap under the dataclass order, as
heapq.heappop selects it; ties are resolved to the leftmost entry. -/
def heapMin (x : PQItem) (l : List PQItem) : PQItem :=
  l.foldl (fun m y => if itemLt y m then y else m) x

theorem heapMin_cons (x z : PQItem) (zs : List PQItem) :
    heapMin x (z :: zs) = heapMin (if itemLt z x then z else x) zs := rfl

theorem heapMin_mem (x : PQItem) (l : List PQItem) :
    heapMin x l ∈ x :: l := by
  induction l generalizing x with
  | nil => simp [heapMin]
  | cons z zs ih =>
    rw [heapMin_cons]
    by_cases hc : itemLt z x
    · rw [if_pos hc]
      rcases List.mem_cons.mp (ih z) with h | h
      · simp [h]
      · simp [List.mem_cons, h]
    · rw [if_neg hc]
      rcases List.mem_cons.mp (ih x) with h | h
      · simp [h]
      · simp [List.mem_cons, h]

theorem heapMin_le (x : PQItem) (l : List PQItem) :
    ∀ y ∈ x :: l, keyOf (heapMin x l) ≤ keyOf y := by
  induction l generalizing x with
  | nil =>
    intro y hy
    simp at hy
    simp [heapMin, hy]
  | cons z zs ih =>
    intro y hy
    rw [heapMin_cons]
    by_cases hc : itemLt z x
    · rw [if_pos hc]
      have hz : keyOf (heapMin z zs) ≤ keyOf z := ih z z (List.mem_cons_self _ _)
      rcases List.mem_cons.mp hy with rfl | hy
      · exact le_trans hz (le_of_lt hc)
      rcases List.mem_cons.mp hy with rfl | hy
      · exact hz
      · exact ih z y (List.mem_cons_of_mem _ hy)
    · rw [if_neg hc]
      have hx : keyOf (heapMin x zs) ≤ keyOf x := ih x x (List.mem_cons_self _ _)
      rcases List.mem_cons.mp hy with rfl | hy
      · exact hx
      rcases List.mem_cons.mp hy with rfl | hy
      · exact le_trans hx (le_of_not_lt hc)
      · exact ih x y (List.mem_cons_of_mem _ hy)

/-- heapq.heappop on the heap list: returns the minimum entry and the rest. -/
def popMin : List PQItem → Option (PQItem × List PQItem)
  | [] => none
  | x :: xs => some (heapMin x xs, (x :: xs).erase (heapMin x xs))

theorem popMin_nil_iff {l : List PQItem} : popMin l = none ↔ l = [] := by
  cases l <;> simp [popMin]

theorem popMin_mem {l : List PQItem} {m : PQItem} {r : List PQItem}
    (h : popMin l = some (m, r)) : m ∈ l := by
  cases l with
  | nil => simp [popMin] at h
  | cons x xs =>
    simp only [popMin, Option.some.injEq, Prod.mk.injEq] at h
    rw [← h.1]
    exact heapMin_mem x xs

theorem popMin_min {l : List PQItem} {m : PQItem} {r : List PQItem}
    (h : popMin l = some (m, r)) : ∀ y ∈ l, keyOf m ≤ keyOf y := by
  cases l with
  | nil => simp [popMin] at h
  | cons x xs =>
    simp only [popMin, Option.some.injEq, Prod.mk.injEq] at h
    rw [← h.1]
    exact heapMin_le x xs

theorem popMin_rest {l : List PQItem} {m : PQItem} {r : List PQItem}
    (h : popMin l = some (m, r)) : r = l.erase m := by
  cases l with
  | nil => simp [popMin] at h
  | cons x xs =>
    simp only [popMin, Option.some.injEq, Prod.mk.injEq] at h
    rw [← h.2, h.1]

theorem popMin_perm {l : List PQItem} {m : PQItem} {r : List PQItem}
    (h : popMin l = some (m, r)) : l.Perm (m :: r) := by
  rw [popMin_rest h]
  exact List.perm_cons_erase (popMin_mem h)

theorem popMin_length {l : List PQItem} {m : PQItem} {r : List PQItem}
    (h : popMin l = some (m, r)) : r.length + 1 = l.length := by
  have := (popMin_perm h).length_eq
  simpa using this.symm

/-- Order in which the worker loop drains a fixed queue when each job runs to
completion before the next pop (max_concurrent = 1, no new submissions):
repeatedly heappop the minimum. -/
def execOrderAux : Nat → List PQItem → List PQItem
  | 0, _ => []
  | fuel + 1, l =>
    match popMin l with
    | none => []
    | some (m, r) => m :: execOrderAux fuel r

/-- The drain order of a queue snapshot. -/
def execOrder (l : List PQItem) : List PQItem :=
  execOrderAux l.length l

theorem execOrderAux_index_lt :
    ∀ (fuel : Nat) (l : List PQItem) (a b : PQItem), l.length ≤ fuel →
      a ∈ l → b ∈ l → itemLt a b →
      (execOrderAux fuel l).indexOf a < (execOrderAux fuel l).indexOf b := by
  intro fuel
  induction fuel with
  | zero =>
    intro l a b hlen ha _ _
    cases l with
    | nil => simp at ha
    | cons x xs => simp at hlen
  | succ n ih =>
    intro l a b hlen ha hb hab
    cases hpop : popMin l with
    | none =>
      rw [popMin_nil_iff] at hpop
      subst hpop; simp at ha
    | some mr =>
      obtain ⟨m, r⟩ := mr
      have hrw : execOrderAux (n + 1) l = m :: execOrderAux n r := by
        cases l with
        | nil => simp [popMin] at hpop
        | cons x xs => simp [execOrderAux, hpop]
      rw [hrw]
      have hne_ab : a ≠ b := ne_of_itemLt hab
      by_cases hma : m = a
      · subst hma
        rw [List.indexOf_cons_self]
        have hmb : m ≠ b := hne_ab
        rw [List.indexOf_cons_ne _ hmb]
        exact Nat.succ_pos _
      · have hmb : m ≠ b := by
          rintro rfl
          exact absurd (popMin_min hpop a ha) (not_le_of_lt hab)
        have ham : a ≠ m := fun h => hma h.symm
        have hbm : b ≠ m := fun h => hmb h.symm
        have har : a ∈ r := by
          rw [popMin_rest hpop]; exact (List.mem_erase_of_ne ham).mpr ha
        have hbr : b ∈ r := by
          rw [popMin_rest hpop]; exact (List.mem_erase_of_ne hbm).mpr hb
        have hlen' : r.length ≤ n := by
          have := popMin_length hpop
          omega
        rw [List.indexOf_cons_ne _ hma, List.indexOf_cons_ne _ hmb]
        exact Nat.succ_lt_succ (ih r a b hlen' har hbr hab)

theorem execOrder_index_lt {l : List PQItem} {a b : PQItem}
    (ha : a ∈ l) (hb : b ∈ l) (hab : itemLt a b) :
    (execOrder l).indexOf a < (execOrder l).indexOf b :=
  execOrderAux_index_lt l.length l a b le_rfl ha hb hab

/-! ## Result records (the task_results dict of TaskQueue)

The dict is modelled as an association list in insertion order, which is
exactly how a Python dict iterates.  Fields started_at / completed_at /
func_name / priority of the record are bookkeeping the claims never touch and
are omitted; created_at is kept because purge_old_results sorts by it. -/

/-- One entry of the task_results dict. -/
structure Rec where
  status : Status
  created_at : Nat
  result : Option Nat
  error : Option ErrPayload
deriving DecidableEq

/-- Record written by add_task on admission. -/
def mkQueued (ts : Nat) : Rec :=
  { status := Status.queued, created_at := ts, result := none, error := none }

/-- dict lookup task_results.get(task_id). -/
def findRec : List (Nat × Rec) → Nat → Option Rec
  | [], _ => none
  | kv :: rest, id => if kv.1 = id then some kv.2 else findRec rest id

/-- get_task_status: the record if tracked, else the not_found marker. -/
inductive StatusView
  | found (r : Rec)
  | not_found
deriving DecidableEq

/-- TaskQueue.get_task_status. -/
def get_task_status (results : List (Nat × Rec)) (id : Nat) : StatusView :=
  match findRec results id with
  | some r => StatusView.found r
  | none => StatusView.not_found

/-- In-place update self.task_results[id].update(...); a missing key leaves
the list unchanged (the machine's steps only apply it under a lookup guard,
matching the KeyError the source would raise otherwise). -/
def updateRec (results : List (Nat × Rec)) (id : Nat) (f : Rec → Rec) :
    List (Nat × Rec) :=
  results.map (fun kv => if kv.1 = id then (kv.1, f kv.2) else kv)

/-- setdefault(id, dict with created_at) followed by an unconditional update to
status canceled, as in TaskQueue.cancel and the worker's canceled-skip. -/
def setCanceled (results : List (Nat × Rec)) (id : Nat) (now : Nat) :
    List (Nat × Rec) :=
  match findRec results id with
  | some _ => updateRec results id (fun r =>
      { r with status := Status.canceled, result := none,
               error := some ErrPayload.canceledMark })
  | none => results ++ [(id,
      { status := Status.canceled, created_at := now, result := none,
        error := some ErrPayload.canceledMark })]

/-- Comparison used by purge_old_results: sort ascending by created_at. -/
def recLe (a b : Nat × Rec) : Prop := a.2.created_at ≤ b.2.created_at

instance : DecidableRel recLe := fun a b => by
  unfold recLe; infer_instance

instance : IsTotal (Nat × Rec) recLe :=
  ⟨fun a b => Nat.le_total a.2.created_at b.2.created_at⟩

instance : IsTrans (Nat × Rec) recLe :=
  ⟨fun _ _ _ h1 h2 => Nat.le_trans h1 h2⟩

/-- TaskQueue.purge_old_results: when more than max_items records are tracked,
sort all records by created_at ascending and pop the oldest n - max_items ids
from the dict. -/
def purge_old_results (results : List (Nat × Rec)) (max_items : Nat) :
    List (Nat × Rec) :=
  if results.length ≤ max_items then results
  else
    results.filter (fun kv => decide (kv.1 ∉
      ((List.insertionSort recLe results).take
        (results.length - max_items)).map Prod.fst))

/-- Effect of TaskQueue.add_task on the task_results dict: insert the queued
record, then purge_old_results(max_items=5000) — the call at the end of
add_task. -/
def add_task_results (results : List (Nat × Rec)) (id : Nat) (ts : Nat) :
    List (Nat × Rec) :=
  purge_old_results (results ++ [(id, mkQueued ts)]) 5000

/-- TaskQueue._execute_task's terminal record transition for a finished job:
completion stores the result, an exception stores failed with the message,
asyncio.TimeoutError stores failed with the timeout marker, and
asyncio.CancelledError stores canceled. -/
def executeTask (it : PQItem) (r : Rec) : Rec :=
  match it.outcome with
  | Outcome.ok v =>
      { r with status := Status.completed, result := some v, error := none }
  | Outcome.raises m =>
      { r with status := Status.failed, result := none,
               error := some (ErrPayload.msg m) }
  | Outcome.timesOut =>
      { r with status := Status.failed, result := none,
               error := some (ErrPayload.timeoutMark it.timeout) }
  | Outcome.canceledRun =>
      { r with status := Status.canceled, result := none,
               error := some ErrPayload.canceledMark }

/-! ## The scheduler as a transition system

One state of a running TaskQueue.  `pending` is the worker's local variable
between heappop and the canceled-check / create_task; `invoked` is the ghost
set of job ids whose submitted coroutine has actually been started;
`used` is the ghost set of every id ever handed out by add_task (uuid4 ids
never repeat, which is the only fact the guards encode). -/
structure TQ where
  heap : List PQItem
  seqCtr : Nat
  pending : Option PQItem
  active : List PQItem
  results : List (Nat × Rec)
  canceledIds : List Nat
  invoked : List Nat
  used : List Nat
  maxConc : Nat
deriving DecidableEq

/-- Ids currently in the heap. -/
def heapIds (s : TQ) : List Nat := s.heap.map PQItem.id

/-- Ids currently executing (keys of active_tasks). -/
def activeIds (s : TQ) : List Nat := s.active.map PQItem.id

/-- One if the worker holds a popped-but-not-yet-started item. -/
def pendCount (s : TQ) : Nat := if s.pending.isSome then 1 else 0

/-- The empty scheduler right after construction and start(). -/
def initTQ (maxConc : Nat) : TQ :=
  { heap := [], seqCtr := 0, pending := none, active := [], results := [],
    canceledIds := [], invoked := [], used := [], maxConc := maxConc }

/-- Interleaved small-step semantics of TaskQueue: each constructor is one
atomic stretch of the source between suspension points. -/
inductive Step : TQ → TQ → Prop where
  /-- add_task: assign a fresh id, push the item under the heap lock with the
  next sequence number, record the queued status, then purge_old_results(5000). -/
  | submit (s : TQ) (it : PQItem)
      (hid : it.id ∉ s.used) (hseq : it.seq = s.seqCtr + 1) :
      Step s { s with heap := it :: s.heap,
                      seqCtr := s.seqCtr + 1,
                      results := add_task_results s.results it.id it.created_ts,
                      used := it.id :: s.used }
  /-- An explicit caller invocation of purge_old_results. -/
  | purgeCall (s : TQ) (m : Nat) :
      Step s { s with results := purge_old_results s.results m }
  /-- Worker loop: a free slot exists, pop the minimum into the local item. -/
  | popStep (s : TQ) (it : PQItem) (rest : List PQItem)
      (hslot : s.active.length < s.maxConc) (hpend : s.pending = none)
      (hpop : popMin s.heap = some (it, rest)) :
      Step s { s with heap := rest, pending := some it }
  /-- Worker loop: the popped item was canceled before start — discard the
  mark, record canceled, and never run it. -/
  | skipCanceled (s : TQ) (it : PQItem) (now : Nat)
      (hpend : s.pending = some it) (hc : it.id ∈ s.canceledIds) :
      Step s { s with pending := none,
                      canceledIds := s.canceledIds.erase it.id,
                      results := setCanceled s.results it.id now }
  /-- Worker loop: the popped item's record was purged; the status update
  raises KeyError, the worker's except-branch logs it and continues, and the
  job is dropped without running. -/
  | dropLost (s : TQ) (it : PQItem)
      (hpend : s.pending = some it) (hc : it.id ∉ s.canceledIds)
      (hrec : findRec s.results it.id = none) :
      Step s { s with pending := none }
  /-- Worker loop: mark processing and spawn _execute_task as a tracked task. -/
  | startRun (s : TQ) (it : PQItem) (r : Rec)
      (hpend : s.pending = some it) (hc : it.id ∉ s.canceledIds)
      (hrec : findRec s.results it.id = some r) :
      Step s { s with pending := none,
                      active := it :: s.active,
                      results := updateRec s.results it.id
                        (fun rr => { rr with status := Status.processing }),
                      invoked := it.id :: s.invoked }
  /-- _execute_task finishing: record the terminal state and free the slot. -/
  | finish (s : TQ) (it : PQItem) (hact : it ∈ s.active) :
      Step s { s with active := s.active.erase it,
                      results := updateRec s.results it.id (executeTask it) }
  /-- cancel, window 1: the job is still in the heap — remove it and record
  canceled. -/
  | cancelHeap (s : TQ) (it : PQItem) (now : Nat) (hmem : it ∈ s.heap) :
      Step s { s with heap := s.heap.erase it,
                      results := setCanceled s.results it.id now }
  /-- cancel, window 2 (popped but not started): not in the heap, not an
  active task, status still queued/processing — mark the id for the worker. -/
  | cancelMark (s : TQ) (id : Nat) (r : Rec)
      (hheap : id ∉ heapIds s) (hact : id ∉ activeIds s)
      (hrec : findRec s.results id = some r)
      (hst : r.status = Status.queued ∨ r.status = Status.processing) :
      Step s { s with canceledIds := s.canceledIds.insert id }

/-- Reachability from the empty scheduler. -/
def ReachableFrom (s0 s : TQ) : Prop := Relation.ReflTransGen Step s0 s

/-- States a freshly started scheduler with cap maxConc can reach. -/
def Reachable (maxConc : Nat) (s : TQ) : Prop :=
  ReachableFrom (initTQ maxConc) s

/-! ### Dictionary lemmas -/

theorem findRec_eq_none {l : List (Nat × Rec)} {id : Nat}
    (h : ∀ kv ∈ l, kv.1 ≠ id) : findRec l id = none := by
  induction l with
  | nil => rfl
  | cons kv rest ih =>
    have hkv : kv.1 ≠ id := h kv (List.mem_cons_self _ _)
    simp only [findRec, if_neg hkv]
    exact ih (fun kv' h' => h kv' (List.mem_cons_of_mem _ h'))

theorem findRec_none_not_mem {l : List (Nat × Rec)} {id : Nat}
    (h : findRec l id = none) : id ∉ l.map Prod.fst := by
  induction l with
  | nil => simp
  | cons kv rest ih =>
    by_cases hkv : kv.1 = id
    · simp [findRec, hkv] at h
    · simp only [findRec, if_neg hkv] at h
      simp only [List.map_cons, List.mem_cons]
      rintro (h1 | h1)
      · exact hkv h1.symm
      · exact ih h h1

theorem findRec_mem {l : List (Nat × Rec)} {id : Nat} {r : Rec}
    (h : findRec l id = some r) : (id, r) ∈ l := by
  induction l with
  | nil => simp [findRec] at h
  | cons kv rest ih =>
    by_cases hkv : kv.1 = id
    · simp only [findRec, if_pos hkv, Option.some.injEq] at h
      subst hkv; rw [← h]
      exact List.mem_cons_self _ _
    · simp only [findRec, if_neg hkv] at h
      exact List.mem_cons_of_mem _ (ih h)

theorem findRec_isSome_of_mem {l : List (Nat × Rec)} {id : Nat} {r : Rec}
    (h : (id, r) ∈ l) : ∃ r0, findRec l id = some r0 := by
  induction l with
  | nil => simp at h
  | cons kv rest ih =>
    by_cases hkv : kv.1 = id
    · exact ⟨kv.2, by simp [findRec, hkv]⟩
    · rcases List.mem_cons.mp h with h1 | h1
      · rw [← h1] at hkv; simp at hkv
      · simpa [findRec, hkv] using ih h1

theorem findRec_of_mem_nodup {l : List (Nat × Rec)} {id : Nat} {r : Rec}
    (hnd : (l.map Prod.fst).Nodup) (h : (id, r) ∈ l) :
    findRec l id = some r := by
  induction l with
  | nil => simp at h
  | cons kv rest ih =>
    simp only [List.map_cons, List.nodup_cons] at hnd
    rcases List.mem_cons.mp h with h1 | h1
    · rw [← h1]; simp [findRec]
    · have hkv : kv.1 ≠ id := by
        intro he
        exact hnd.1 (he ▸ (List.mem_map.mpr ⟨(id, r), h1, rfl⟩))
      simp only [findRec, if_neg hkv]
      exact ih hnd.2 h1

theorem map_fst_updateRec (l : List (Nat × Rec)) (id : Nat) (f : Rec → Rec) :
    (updateRec l id f).map Prod.fst = l.map Prod.fst := by
  induction l with
  | nil => rfl
  | cons kv rest ih =>
    by_cases hkv : kv.1 = id <;> simp [updateRec, hkv] at ih ⊢ <;> exact ih

theorem updateRec_cons (kv : Nat × Rec) (rest : List (Nat × Rec)) (id : Nat)
    (f : Rec → Rec) :
    updateRec (kv :: rest) id f
      = (if kv.1 = id then (kv.1, f kv.2) else kv) :: updateRec rest id f := rfl

theorem findRec_updateRec_other {l : List (Nat × Rec)} {id id' : Nat}
    (f : Rec → Rec) (h : id' ≠ id) :
    findRec (updateRec l id f) id' = findRec l id' := by
  induction l with
  | nil => rfl
  | cons kv rest ih =>
    rw [updateRec_cons]
    by_cases hkv : kv.1 = id
    · have hne : ¬ kv.1 = id' := fun e => h (e ▸ hkv)
      rw [if_pos hkv]
      simp [findRec, hne, ih]
    · rw [if_neg hkv]
      by_cases hkv' : kv.1 = id'
      · simp [findRec, hkv']
      · simp [findRec, hkv', ih]

theorem findRec_updateRec_self {l : List (Nat × Rec)} {id : Nat} {r : Rec}
    (f : Rec → Rec) (h : findRec l id = some r) :
    findRec (updateRec l id f) id = some (f r) := by
  induction l with
  | nil => simp [findRec] at h
  | cons kv rest ih =>
    rw [updateRec_cons]
    by_cases hkv : kv.1 = id
    · simp only [findRec, if_pos hkv, Option.some.injEq] at h
      rw [if_pos hkv]
      simp [findRec, hkv, h]
    · simp only [findRec, if_neg hkv] at h
      rw [if_neg hkv]
      simp [findRec, hkv, ih h]

theorem mem_updateRec {l : List (Nat × Rec)} {id : Nat} {f : Rec → Rec}
    {kv : Nat × Rec} (h : kv ∈ updateRec l id f) :
    (kv ∈ l ∧ kv.1 ≠ id) ∨ (∃ r0, (id, r0) ∈ l ∧ kv = (id, f r0)) := by
  induction l with
  | nil => simp [updateRec] at h
  | cons kv0 rest ih =>
    rw [updateRec_cons] at h
    rcases List.mem_cons.mp h with h1 | h1
    · by_cases hkv : kv0.1 = id
      · rw [if_pos hkv] at h1
        right
        refine ⟨kv0.2, ?_, ?_⟩
        · rw [← hkv]; exact List.mem_cons_self _ _
        · rw [h1, hkv]
      · rw [if_neg hkv] at h1
        subst h1
        exact Or.inl ⟨List.mem_cons_self _ _, hkv⟩
    · rcases ih h1 with h2 | h2
      · exact Or.inl ⟨List.mem_cons_of_mem _ h2.1, h2.2⟩
      · obtain ⟨r0, hr0, hkveq⟩ := h2
        exact Or.inr ⟨r0, List.mem_cons_of_mem _ hr0, hkveq⟩

theorem purge_sublist (l : List (Nat × Rec)) (m : Nat) :
    List.Sublist (purge_old_results l m) l := by
  unfold purge_old_results
  by_cases h : l.length ≤ m
  · simp [h]
  · simp only [h, if_neg, not_false_iff]
    exact List.filter_sublist l

theorem mem_of_mem_purge {l : List (Nat × Rec)} {m : Nat} {kv : Nat × Rec}
    (h : kv ∈ purge_old_results l m) : kv ∈ l :=
  (purge_sublist l m).subset h

theorem map_fst_purge_sublist (l : List (Nat × Rec)) (m : Nat) :
    List.Sublist ((purge_old_results l m).map Prod.fst) (l.map Prod.fst) :=
  (purge_sublist l m).map Prod.fst

theorem findRec_purge_some {l : List (Nat × Rec)} {m : Nat} {id : Nat} {r : Rec}
    (hnd : (l.map Prod.fst).Nodup) (h : findRec (purge_old_results l m) id = some r) :
    findRec l id = some r :=
  findRec_of_mem_nodup hnd (mem_of_mem_purge (findRec_mem h))

theorem findRec_append_of_none {l1 l2 : List (Nat × Rec)} {id : Nat}
    (h : findRec l1 id = none) : findRec (l1 ++ l2) id = findRec l2 id := by
  induction l1 with
  | nil => rfl
  | cons kv rest ih =>
    by_cases hkv : kv.1 = id
    · simp [findRec, hkv] at h
    · simp only [findRec, if_neg hkv] at h
      simp only [List.cons_append, findRec, if_neg hkv]
      exact ih h

theorem findRec_append_of_some {l1 l2 : List (Nat × Rec)} {id : Nat} {r : Rec}
    (h : findRec l1 id = some r) : findRec (l1 ++ l2) id = some r := by
  induction l1 with
  | nil => simp [findRec] at h
  | cons kv rest ih =>
    by_cases hkv : kv.1 = id
    · simp only [findRec, if_pos hkv] at h
      simp only [List.cons_append, findRec, if_pos hkv]
      exact h
    · simp only [findRec, if_neg hkv] at h
      simp only [List.cons_append, findRec, if_neg hkv]
      exact ih h

theorem setCanceled_map_fst_some {l : List (Nat × Rec)} {id : Nat} {r : Rec}
    (now : Nat) (h : findRec l id = some r) :
    (setCanceled l id now).map Prod.fst = l.map Prod.fst := by
  unfold setCanceled
  rw [h]
  exact map_fst_updateRec l id _

theorem setCanceled_map_fst_none {l : List (Nat × Rec)} {id : Nat}
    (now : Nat) (h : findRec l id = none) :
    (setCanceled l id now).map Prod.fst = l.map Prod.fst ++ [id] := by
  unfold setCanceled
  rw [h]
  simp

theorem findRec_setCanceled_self (l : List (Nat × Rec)) (id : Nat) (now : Nat) :
    ∃ r, findRec (setCanceled l id now) id = some r
      ∧ r.status = Status.canceled := by
  unfold setCanceled
  cases h : findRec l id with
  | some r0 =>
    refine ⟨_, findRec_updateRec_self _ h, ?_⟩
    rfl
  | none =>
    refine ⟨{ status := Status.canceled, created_at := now, result := none,
              error := some ErrPayload.canceledMark }, ?_, rfl⟩
    rw [findRec_append_of_none h]
    simp [findRec]

theorem findRec_setCanceled_other {l : List (Nat × Rec)} {id id' : Nat}
    (now : Nat) (h : id' ≠ id) :
    findRec (setCanceled l id now) id' = findRec l id' := by
  unfold setCanceled
  cases hf : findRec l id with
  | some r0 => exact findRec_updateRec_other _ h
  | none =>
    cases hf' : findRec l id' with
    | some r1 => exact findRec_append_of_some hf'
    | none =>
      rw [findRec_append_of_none hf']
      have hne : ¬ id = id' := fun e => h e.symm
      simp [findRec, hne]

theorem mem_setCanceled {l : List (Nat × Rec)} {id now : Nat}
    {kv : Nat × Rec} (h : kv ∈ setCanceled l id now) :
    (kv ∈ l ∧ kv.1 ≠ id) ∨ (kv.1 = id ∧ kv.2.status = Status.canceled) := by
  unfold setCanceled at h
  cases hf : findRec l id with
  | some r0 =>
    rw [hf] at h
    rcases mem_updateRec h with h1 | h1
    · exact Or.inl h1
    · obtain ⟨r1, _, hkv⟩ := h1
      exact Or.inr ⟨by rw [hkv], by rw [hkv]⟩
  | none =>
    rw [hf] at h
    rcases List.mem_append.mp h with h1 | h1
    · left
      refine ⟨h1, fun he => ?_⟩
      exact (findRec_none_not_mem hf) (he ▸ List.mem_map.mpr ⟨kv, h1, rfl⟩)
    · simp only [List.mem_singleton] at h1
      exact Or.inr ⟨by rw [h1], by rw [h1]⟩

/-! ### The scheduler invariant -/

/-- Id of the worker's popped-but-not-started item, as a list. -/
def pendIds (s : TQ) : List Nat :=
  match s.pending with
  | some it => [it.id]
  | none => []

/-- Master invariant of every reachable TaskQueue state. -/
structure Inv (s : TQ) : Prop where
  conc : s.active.length + pendCount s ≤ s.maxConc
  heapQueued : ∀ it ∈ s.heap, ∀ r, findRec s.results it.id = some r →
    r.status = Status.queued
  pendQueued : ∀ it, s.pending = some it → ∀ r, findRec s.results it.id = some r →
    r.status = Status.queued
  heapFresh : ∀ it ∈ s.heap, it.id ∉ s.invoked
  pendFresh : ∀ it, s.pending = some it → it.id ∉ s.invoked
  cancNotHeap : ∀ id ∈ s.canceledIds, id ∉ heapIds s
  cancNodup : s.canceledIds.Nodup
  idsNodup : (heapIds s ++ pendIds s ++ activeIds s).Nodup
  usedAll : ∀ id, (id ∈ heapIds s ∨ id ∈ pendIds s ∨ id ∈ activeIds s
    ∨ id ∈ s.invoked ∨ id ∈ s.canceledIds ∨ id ∈ s.results.map Prod.fst) →
    id ∈ s.used
  invokedNotQueued : ∀ id ∈ s.invoked, ∀ r, findRec s.results id = some r →
    r.status ≠ Status.queued
  procActive : ∀ kv ∈ s.results, kv.2.status = Status.processing →
    kv.1 ∈ activeIds s
  resNodup : (s.results.map Prod.fst).Nodup

theorem inv_init (maxConc : Nat) : Inv (initTQ maxConc) := by
  constructor <;> simp [initTQ, heapIds, pendIds, activeIds, pendCount]

theorem mem_activeIds_erase {s : List PQItem} {it : PQItem} {id : Nat}
    (hid : id ∈ (s.erase it).map PQItem.id) : id ∈ s.map PQItem.id :=
  List.Sublist.subset ((s.erase_sublist it).map PQItem.id) hid

theorem mem_activeIds_erase_of_ne {s : List PQItem} {it : PQItem} {id : Nat}
    (hid : id ∈ s.map PQItem.id) (hne : id ≠ it.id) :
    id ∈ (s.erase it).map PQItem.id := by
  obtain ⟨x, hx, hxid⟩ := List.mem_map.mp hid
  have hxit : x ≠ it := fun he => hne (by rw [← hxid, he])
  exact List.mem_map.mpr ⟨x, (List.mem_erase_of_ne hxit).mpr hx, hxid⟩

theorem findRec_add_task_eq {l : List (Nat × Rec)} {id : Nat} (ts : Nat)
    (hfresh : id ∉ l.map Prod.fst) :
    findRec (l ++ [(id, mkQueued ts)]) id = some (mkQueued ts) := by
  have hnone : findRec l id = none :=
    findRec_eq_none (fun kv hkv he =>
      hfresh (he ▸ List.mem_map.mpr ⟨kv, hkv, rfl⟩))
  rw [findRec_append_of_none hnone]
  simp [findRec]

theorem map_fst_append_single (l : List (Nat × Rec)) (id : Nat) (r : Rec) :
    ((l ++ [(id, r)]).map Prod.fst) = l.map Prod.fst ++ [id] := by
  simp

theorem nodup_append_fresh {l : List (Nat × Rec)} {id : Nat} (r : Rec)
    (hnd : (l.map Prod.fst).Nodup) (hfresh : id ∉ l.map Prod.fst) :
    ((l ++ [(id, r)]).map Prod.fst).Nodup := by
  rw [map_fst_append_single]
  refine List.Nodup.append hnd (List.nodup_singleton id) ?_
  intro a ha hb
  rw [List.mem_singleton] at hb
  exact hfresh (hb ▸ ha)

theorem findRec_add_task_self {l : List (Nat × Rec)} {id ts : Nat} {r : Rec}
    (hnd : (l.map Prod.fst).Nodup) (hfresh : id ∉ l.map Prod.fst)
    (h : findRec (add_task_results l id ts) id = some r) : r = mkQueued ts := by
  have h2 := findRec_purge_some (nodup_append_fresh _ hnd hfresh) h
  rw [findRec_add_task_eq ts hfresh] at h2
  exact (Option.some.injEq _ _ ▸ h2).symm

theorem findRec_add_task_other {l : List (Nat × Rec)} {id ts id' : Nat} {r : Rec}
    (hnd : (l.map Prod.fst).Nodup) (hfresh : id ∉ l.map Prod.fst)
    (hne : id' ≠ id) (h : findRec (add_task_results l id ts) id' = some r) :
    findRec l id' = some r := by
  have h2 := findRec_purge_some (nodup_append_fresh _ hnd hfresh) h
  cases hf : findRec l id' with
  | some r0 =>
    rw [findRec_append_of_some hf] at h2
    exact h2
  | none =>
    rw [findRec_append_of_none hf] at h2
    have hne2 : ¬ id = id' := fun e => hne (Eq.symm e)
    simp [findRec, hne2] at h2

theorem inv_submit {s : TQ} (hs : Inv s) (it : PQItem)
    (hid : it.id ∉ s.used) :
    Inv { s with heap := it :: s.heap,
                 seqCtr := s.seqCtr + 1,
                 results := add_task_results s.results it.id it.created_ts,
                 used := it.id :: s.used } := by
  have hResFst : it.id ∉ s.results.map Prod.fst :=
    fun h => hid (hs.usedAll _ (Or.inr (Or.inr (Or.inr (Or.inr (Or.inr h))))))
  have hneOfUsed : ∀ id0, id0 ∈ s.used → id0 ≠ it.id :=
    fun id0 h0 he => hid (he ▸ h0)
  constructor
  case conc => exact hs.conc
  case heapQueued =>
    intro it' hit' r hr
    replace hit' : it' ∈ it :: s.heap := hit'
    replace hr : findRec (add_task_results s.results it.id it.created_ts) it'.id
      = some r := hr
    rcases List.mem_cons.mp hit' with rfl | hmem
    · rw [findRec_add_task_self hs.resNodup hResFst hr]
      rfl
    · have hne : it'.id ≠ it.id :=
        hneOfUsed _ (hs.usedAll _ (Or.inl (List.mem_map.mpr ⟨it', hmem, rfl⟩)))
      exact hs.heapQueued it' hmem r
        (findRec_add_task_other hs.resNodup hResFst hne hr)
  case pendQueued =>
    intro it' hp r hr
    replace hp : s.pending = some it' := hp
    replace hr : findRec (add_task_results s.results it.id it.created_ts) it'.id
      = some r := hr
    have hpm : it'.id ∈ pendIds s := by simp [pendIds, hp]
    have hne : it'.id ≠ it.id :=
      hneOfUsed _ (hs.usedAll _ (Or.inr (Or.inl hpm)))
    exact hs.pendQueued it' hp r
      (findRec_add_task_other hs.resNodup hResFst hne hr)
  case heapFresh =>
    intro it' hit'
    replace hit' : it' ∈ it :: s.heap := hit'
    rcases List.mem_cons.mp hit' with rfl | hmem
    · exact fun h => hid (hs.usedAll _ (Or.inr (Or.inr (Or.inr (Or.inl h)))))
    · exact hs.heapFresh it' hmem
  case pendFresh => exact hs.pendFresh
  case cancNotHeap =>
    intro id0 h0 hmem
    replace hmem : id0 ∈ it.id :: heapIds s := hmem
    have hne : id0 ≠ it.id :=
      hneOfUsed _ (hs.usedAll _ (Or.inr (Or.inr (Or.inr (Or.inr (Or.inl h0))))))
    rcases List.mem_cons.mp hmem with he | hmem2
    · exact hne he
    · exact hs.cancNotHeap id0 h0 hmem2
  case cancNodup => exact hs.cancNodup
  case idsNodup =>
    have hnotin : it.id ∉ heapIds s ++ pendIds s ++ activeIds s := by
      intro hmem
      rcases List.mem_append.mp hmem with h1 | h1
      · rcases List.mem_append.mp h1 with h2 | h2
        · exact hid (hs.usedAll _ (Or.inl h2))
        · exact hid (hs.usedAll _ (Or.inr (Or.inl h2)))
      · exact hid (hs.usedAll _ (Or.inr (Or.inr (Or.inl h1))))
    show (it.id :: (heapIds s ++ pendIds s ++ activeIds s)).Nodup
    exact List.nodup_cons.mpr ⟨hnotin, hs.idsNodup⟩
  case usedAll =>
    intro id0 h0
    show id0 ∈ it.id :: s.used
    by_cases he : id0 = it.id
    · exact he ▸ List.mem_cons_self _ _
    refine List.mem_cons_of_mem _ (hs.usedAll id0 ?_)
    rcases h0 with h1 | h1 | h1 | h1 | h1 | h1
    · replace h1 : id0 ∈ it.id :: heapIds s := h1
      rcases List.mem_cons.mp h1 with h2 | h2
      · exact absurd h2 he
      · exact Or.inl h2
    · exact Or.inr (Or.inl h1)
    · exact Or.inr (Or.inr (Or.inl h1))
    · exact Or.inr (Or.inr (Or.inr (Or.inl h1)))
    · exact Or.inr (Or.inr (Or.inr (Or.inr (Or.inl h1))))
    · replace h1 : id0 ∈ (add_task_results s.results it.id it.created_ts).map
        Prod.fst := h1
      have h2 := List.Sublist.subset (map_fst_purge_sublist _ 5000) h1
      rw [map_fst_append_single] at h2
      rcases List.mem_append.mp h2 with h3 | h3
      · exact Or.inr (Or.inr (Or.inr (Or.inr (Or.inr h3))))
      · exact absurd (List.mem_singleton.mp h3) he
  case invokedNotQueued =>
    intro id0 h0 r hr
    replace hr : findRec (add_task_results s.results it.id it.created_ts) id0
      = some r := hr
    have hne : id0 ≠ it.id :=
      hneOfUsed _ (hs.usedAll _ (Or.inr (Or.inr (Or.inr (Or.inl h0)))))
    exact hs.invokedNotQueued id0 h0 r
      (findRec_add_task_other hs.resNodup hResFst hne hr)
  case procActive =>
    intro kv hkv hst
    replace hkv : kv ∈ add_task_results s.results it.id it.created_ts := hkv
    show kv.1 ∈ activeIds s
    have hkv2 : kv ∈ s.results ++ [(it.id, mkQueued it.created_ts)] :=
      mem_of_mem_purge hkv
    rcases List.mem_append.mp hkv2 with h1 | h1
    · exact hs.procActive kv h1 hst
    · rw [List.mem_singleton.mp h1] at hst
      exact absurd hst (by simp [mkQueued])
  case resNodup =>
    exact List.Nodup.sublist (map_fst_purge_sublist _ 5000)
      (nodup_append_fresh _ hs.resNodup hResFst)

theorem findRec_updateRec_none {l : List (Nat × Rec)} {id : Nat}
    (f : Rec → Rec) (h : findRec l id = none) :
    findRec (updateRec l id f) id = none := by
  induction l with
  | nil => rfl
  | cons kv rest ih =>
    by_cases hkv : kv.1 = id
    · simp [findRec, hkv] at h
    · simp only [findRec, if_neg hkv] at h
      rw [updateRec_cons, if_neg hkv]
      simp only [findRec, if_neg hkv]
      exact ih h

theorem findRec_updateRec_inv {l : List (Nat × Rec)} {id : Nat} {r' : Rec}
    (f : Rec → Rec) (h : findRec (updateRec l id f) id = some r') :
    ∃ r0, findRec l id = some r0 ∧ r' = f r0 := by
  cases hf : findRec l id with
  | some r0 =>
    rw [findRec_updateRec_self f hf] at h
    exact ⟨r0, rfl, (Option.some.inj h).symm⟩
  | none =>
    rw [findRec_updateRec_none f hf] at h
    simp at h

theorem executeTask_status (it : PQItem) (r : Rec) :
    (executeTask it r).status = Status.completed
    ∨ (executeTask it r).status = Status.failed
    ∨ (executeTask it r).status = Status.canceled := by
  unfold executeTask
  cases it.outcome <;> simp

theorem executeTask_not_queued (it : PQItem) (r : Rec) :
    (executeTask it r).status ≠ Status.queued := by
  rcases executeTask_status it r with h | h | h <;> rw [h] <;> intro hc <;> cases hc

theorem executeTask_not_processing (it : PQItem) (r : Rec) :
    (executeTask it r).status ≠ Status.processing := by
  rcases executeTask_status it r with h | h | h <;> rw [h] <;> intro hc <;> cases hc

theorem heap_id_injective {s : TQ} (hs : Inv s) {a b : PQItem}
    (ha : a ∈ s.heap) (hb : b ∈ s.heap) (hid : a.id = b.id) : a = b := by
  have hnd : (heapIds s).Nodup :=
    ((List.nodup_append.mp ((List.nodup_append.mp hs.idsNodup).1)).1)
  exact List.inj_on_of_nodup_map hnd ha hb hid

theorem heapPend_active_disjoint {s : TQ} (hs : Inv s) :
    List.Disjoint (heapIds s ++ pendIds s) (activeIds s) :=
  (List.nodup_append.mp hs.idsNodup).2.2

theorem heap_pend_disjoint {s : TQ} (hs : Inv s) {it it' : PQItem}
    (hp : s.pending = some it) (hh : it' ∈ s.heap) : it'.id ≠ it.id := by
  have hnd := hs.idsNodup
  rw [List.nodup_append, List.nodup_append] at hnd
  have hdisj := hnd.1.2.2
  intro he
  have h1 : it'.id ∈ heapIds s := List.mem_map.mpr ⟨it', hh, rfl⟩
  have h2 : it'.id ∈ pendIds s := by simp [pendIds, hp, he]
  exact hdisj h1 h2

theorem heap_active_disjoint {s : TQ} (hs : Inv s) {it' : PQItem} {id0 : Nat}
    (hh : it' ∈ s.heap) (ha : id0 ∈ activeIds s) : it'.id ≠ id0 := by
  intro he
  refine heapPend_active_disjoint hs ?_ ha
  exact List.mem_append.mpr (Or.inl (List.mem_map.mpr ⟨it', hh, he⟩))

theorem pend_active_disjoint {s : TQ} (hs : Inv s) {it : PQItem} {id0 : Nat}
    (hp : s.pending = some it) (ha : id0 ∈ activeIds s) : it.id ≠ id0 := by
  intro he
  refine heapPend_active_disjoint hs ?_ ha
  refine List.mem_append.mpr (Or.inr ?_)
  simp [pendIds, hp, he]

theorem inv_purgeCall {s : TQ} (hs : Inv s) (m : Nat) :
    Inv { s with results := purge_old_results s.results m } := by
  constructor
  case conc => exact hs.conc
  case heapQueued =>
    intro it' hit' r hr
    replace hr : findRec (purge_old_results s.results m) it'.id = some r := hr
    exact hs.heapQueued it' hit' r (findRec_purge_some hs.resNodup hr)
  case pendQueued =>
    intro it' hp r hr
    replace hr : findRec (purge_old_results s.results m) it'.id = some r := hr
    exact hs.pendQueued it' hp r (findRec_purge_some hs.resNodup hr)
  case heapFresh => exact hs.heapFresh
  case pendFresh => exact hs.pendFresh
  case cancNotHeap => exact hs.cancNotHeap
  case cancNodup => exact hs.cancNodup
  case idsNodup => exact hs.idsNodup
  case usedAll =>
    intro id0 h0
    refine hs.usedAll id0 ?_
    rcases h0 with h1 | h1 | h1 | h1 | h1 | h1
    · exact Or.inl h1
    · exact Or.inr (Or.inl h1)
    · exact Or.inr (Or.inr (Or.inl h1))
    · exact Or.inr (Or.inr (Or.inr (Or.inl h1)))
    · exact Or.inr (Or.inr (Or.inr (Or.inr (Or.inl h1))))
    · replace h1 : id0 ∈ (purge_old_results s.results m).map Prod.fst := h1
      exact Or.inr (Or.inr (Or.inr (Or.inr (Or.inr
        (List.Sublist.subset (map_fst_purge_sublist _ m) h1)))))
  case invokedNotQueued =>
    intro id0 h0 r hr
    replace hr : findRec (purge_old_results s.results m) id0 = some r := hr
    exact hs.invokedNotQueued id0 h0 r (findRec_purge_some hs.resNodup hr)
  case procActive =>
    intro kv hkv hst
    replace hkv : kv ∈ purge_old_results s.results m := hkv
    exact hs.procActive kv (mem_of_mem_purge hkv) hst
  case resNodup =>
    exact List.Nodup.sublist (map_fst_purge_sublist _ m) hs.resNodup

theorem inv_popStep {s : TQ} (hs : Inv s) {it : PQItem} {rest : List PQItem}
    (hslot : s.active.length < s.maxConc) (hpend : s.pending = none)
    (hpop : popMin s.heap = some (it, rest)) :
    Inv { s with heap := rest, pending := some it } := by
  have hmemHeap : it ∈ s.heap := popMin_mem hpop
  have hrestSub : ∀ x ∈ rest, x ∈ s.heap := by
    intro x hx
    rw [popMin_rest hpop] at hx
    exact (s.heap.erase_sublist it).subset hx
  constructor
  case conc =>
    show s.active.length + pendCount { s with heap := rest, pending := some it }
      ≤ s.maxConc
    have : pendCount { s with heap := rest, pending := some it } = 1 := rfl
    omega
  case heapQueued =>
    intro it' hit' r hr
    replace hit' : it' ∈ rest := hit'
    exact hs.heapQueued it' (hrestSub it' hit') r hr
  case pendQueued =>
    intro it' hp r hr
    replace hp : (some it : Option PQItem) = some it' := hp
    replace hr : findRec s.results it'.id = some r := hr
    rw [← Option.some.inj hp] at hr
    exact hs.heapQueued it hmemHeap r hr
  case heapFresh =>
    intro it' hit'
    replace hit' : it' ∈ rest := hit'
    exact hs.heapFresh it' (hrestSub it' hit')
  case pendFresh =>
    intro it' hp
    replace hp : (some it : Option PQItem) = some it' := hp
    rw [← Option.some.inj hp]
    exact hs.heapFresh it hmemHeap
  case cancNotHeap =>
    intro id0 h0 hmem
    replace hmem : id0 ∈ rest.map PQItem.id := hmem
    obtain ⟨x, hx, hxid⟩ := List.mem_map.mp hmem
    exact hs.cancNotHeap id0 h0 (List.mem_map.mpr ⟨x, hrestSub x hx, hxid⟩)
  case cancNodup => exact hs.cancNodup
  case idsNodup =>
    show (rest.map PQItem.id ++ [it.id] ++ activeIds s).Nodup
    have h1 : List.Perm (heapIds s) (it.id :: rest.map PQItem.id) := by
      have := (popMin_perm hpop).map PQItem.id
      simpa [heapIds] using this
    have h2 : pendIds s = [] := by simp [pendIds, hpend]
    have hold : (heapIds s ++ activeIds s).Nodup := by
      have h3 := hs.idsNodup
      rw [h2] at h3
      simpa using h3
    rw [List.append_assoc]
    have hperm : List.Perm (heapIds s ++ activeIds s)
        (rest.map PQItem.id ++ ([it.id] ++ activeIds s)) := by
      refine List.Perm.trans (List.Perm.append_right _ h1) ?_
      exact List.perm_middle.symm
    exact hperm.nodup hold
  case usedAll =>
    intro id0 h0
    refine hs.usedAll id0 ?_
    rcases h0 with h1 | h1 | h1 | h1 | h1 | h1
    · replace h1 : id0 ∈ rest.map PQItem.id := h1
      obtain ⟨x, hx, hxid⟩ := List.mem_map.mp h1
      exact Or.inl (List.mem_map.mpr ⟨x, hrestSub x hx, hxid⟩)
    · replace h1 : id0 ∈ [it.id] := h1
      rw [List.mem_singleton.mp h1]
      exact Or.inl (List.mem_map.mpr ⟨it, hmemHeap, rfl⟩)
    · exact Or.inr (Or.inr (Or.inl h1))
    · exact Or.inr (Or.inr (Or.inr (Or.inl h1)))
    · exact Or.inr (Or.inr (Or.inr (Or.inr (Or.inl h1))))
    · exact Or.inr (Or.inr (Or.inr (Or.inr (Or.inr h1))))
  case invokedNotQueued => exact hs.invokedNotQueued
  case procActive => exact hs.procActive
  case resNodup => exact hs.resNodup

theorem inv_dropLost {s : TQ} (hs : Inv s) :
    Inv { s with pending := none } := by
  constructor
  case conc =>
    show s.active.length + pendCount { s with pending := (none : Option PQItem) }
      ≤ s.maxConc
    have h1 : s.active.length + pendCount s ≤ s.maxConc := hs.conc
    have h2 : pendCount { s with pending := (none : Option PQItem) } = 0 := rfl
    omega
  case heapQueued => exact hs.heapQueued
  case pendQueued => intro it' hp; cases hp
  case heapFresh => exact hs.heapFresh
  case pendFresh => intro it' hp; cases hp
  case cancNotHeap => exact hs.cancNotHeap
  case cancNodup => exact hs.cancNodup
  case idsNodup =>
    show (heapIds s ++ [] ++ activeIds s).Nodup
    refine List.Nodup.sublist ?_ hs.idsNodup
    refine List.Sublist.append_right ?_ _
    exact List.Sublist.append_left (List.nil_sublist _) _
  case usedAll =>
    intro id0 h0
    refine hs.usedAll id0 ?_
    rcases h0 with h1 | h1 | h1 | h1 | h1 | h1
    · exact Or.inl h1
    · replace h1 : id0 ∈ ([] : List Nat) := h1
      simp at h1
    · exact Or.inr (Or.inr (Or.inl h1))
    · exact Or.inr (Or.inr (Or.inr (Or.inl h1)))
    · exact Or.inr (Or.inr (Or.inr (Or.inr (Or.inl h1))))
    · exact Or.inr (Or.inr (Or.inr (Or.inr (Or.inr h1))))
  case invokedNotQueued => exact hs.invokedNotQueued
  case procActive => exact hs.procActive
  case resNodup => exact hs.resNodup

theorem resNodup_setCanceled {s : TQ} (hs : Inv s) (id now : Nat) :
    ((setCanceled s.results id now).map Prod.fst).Nodup := by
  cases hf : findRec s.results id with
  | some r0 =>
    rw [setCanceled_map_fst_some now hf]
    exact hs.resNodup
  | none =>
    rw [setCanceled_map_fst_none now hf]
    refine List.Nodup.append hs.resNodup (List.nodup_singleton id) ?_
    intro a ha hb
    rw [List.mem_singleton] at hb
    exact (findRec_none_not_mem hf) (hb ▸ ha)

theorem mem_map_fst_setCanceled {s : TQ} {id now id0 : Nat}
    (h : id0 ∈ (setCanceled s.results id now).map Prod.fst) :
    id0 ∈ s.results.map Prod.fst ∨ id0 = id := by
  cases hf : findRec s.results id with
  | some r0 =>
    rw [setCanceled_map_fst_some now hf] at h
    exact Or.inl h
  | none =>
    rw [setCanceled_map_fst_none now hf] at h
    rcases List.mem_append.mp h with h1 | h1
    · exact Or.inl h1
    · exact Or.inr (List.mem_singleton.mp h1)

theorem inv_skipCanceled {s : TQ} (hs : Inv s) {it : PQItem} (now : Nat)
    (hpend : s.pending = some it) :
    Inv { s with pending := none,
                 canceledIds := s.canceledIds.erase it.id,
                 results := setCanceled s.results it.id now } := by
  constructor
  case conc =>
    show s.active.length + 0 ≤ s.maxConc
    have h1 : s.active.length + pendCount s ≤ s.maxConc := hs.conc
    omega
  case heapQueued =>
    intro it' hit' r hr
    replace hit' : it' ∈ s.heap := hit'
    replace hr : findRec (setCanceled s.results it.id now) it'.id = some r := hr
    have hne : it'.id ≠ it.id := heap_pend_disjoint hs hpend hit'
    rw [findRec_setCanceled_other now hne] at hr
    exact hs.heapQueued it' hit' r hr
  case pendQueued => intro it' hp; cases hp
  case heapFresh => exact hs.heapFresh
  case pendFresh => intro it' hp; cases hp
  case cancNotHeap =>
    intro id0 h0
    replace h0 : id0 ∈ s.canceledIds.erase it.id := h0
    exact hs.cancNotHeap id0 ((s.canceledIds.erase_sublist it.id).subset h0)
  case cancNodup =>
    show (s.canceledIds.erase it.id).Nodup
    exact List.Nodup.erase _ hs.cancNodup
  case idsNodup =>
    show (heapIds s ++ [] ++ activeIds s).Nodup
    refine List.Nodup.sublist ?_ hs.idsNodup
    refine List.Sublist.append_right ?_ _
    exact List.Sublist.append_left (List.nil_sublist _) _
  case usedAll =>
    intro id0 h0
    refine hs.usedAll id0 ?_
    rcases h0 with h1 | h1 | h1 | h1 | h1 | h1
    · exact Or.inl h1
    · replace h1 : id0 ∈ ([] : List Nat) := h1
      simp at h1
    · exact Or.inr (Or.inr (Or.inl h1))
    · exact Or.inr (Or.inr (Or.inr (Or.inl h1)))
    · replace h1 : id0 ∈ s.canceledIds.erase it.id := h1
      exact Or.inr (Or.inr (Or.inr (Or.inr
        (Or.inl ((s.canceledIds.erase_sublist it.id).subset h1)))))
    · replace h1 : id0 ∈ (setCanceled s.results it.id now).map Prod.fst := h1
      rcases mem_map_fst_setCanceled h1 with h2 | h2
      · exact Or.inr (Or.inr (Or.inr (Or.inr (Or.inr h2))))
      · subst h2
        exact Or.inr (Or.inl (by simp [pendIds, hpend]))
  case invokedNotQueued =>
    intro id0 h0 r hr
    replace hr : findRec (setCanceled s.results it.id now) id0 = some r := hr
    have hne : id0 ≠ it.id := by
      intro he
      exact hs.pendFresh it hpend (he ▸ h0)
    rw [findRec_setCanceled_other now hne] at hr
    exact hs.invokedNotQueued id0 h0 r hr
  case procActive =>
    intro kv hkv hst
    replace hkv : kv ∈ setCanceled s.results it.id now := hkv
    show kv.1 ∈ activeIds s
    rcases mem_setCanceled hkv with h1 | h1
    · exact hs.procActive kv h1.1 hst
    · rw [h1.2] at hst; cases hst
  case resNodup => exact resNodup_setCanceled hs it.id now

theorem inv_startRun {s : TQ} (hs : Inv s) {it : PQItem} {r : Rec}
    (hpend : s.pending = some it)
    (_hrec : findRec s.results it.id = some r) :
    Inv { s with pending := none,
                 active := it :: s.active,
                 results := updateRec s.results it.id
                   (fun rr => { rr with status := Status.processing }),
                 invoked := it.id :: s.invoked } := by
  constructor
  case conc =>
    show s.active.length + 1 + 0 ≤ s.maxConc
    have h1 : s.active.length + pendCount s ≤ s.maxConc := hs.conc
    have h2 : pendCount s = 1 := by simp [pendCount, hpend]
    omega
  case heapQueued =>
    intro it' hit' r' hr'
    replace hit' : it' ∈ s.heap := hit'
    replace hr' : findRec (updateRec s.results it.id
      (fun rr => { rr with status := Status.processing })) it'.id = some r' := hr'
    have hne : it'.id ≠ it.id := heap_pend_disjoint hs hpend hit'
    rw [findRec_updateRec_other _ hne] at hr'
    exact hs.heapQueued it' hit' r' hr'
  case pendQueued => intro it' hp; cases hp
  case heapFresh =>
    intro it' hit'
    replace hit' : it' ∈ s.heap := hit'
    have hne : it'.id ≠ it.id := heap_pend_disjoint hs hpend hit'
    show it'.id ∉ it.id :: s.invoked
    intro hmem
    rcases List.mem_cons.mp hmem with he | hmem2
    · exact hne he
    · exact hs.heapFresh it' hit' hmem2
  case pendFresh => intro it' hp; cases hp
  case cancNotHeap => exact hs.cancNotHeap
  case cancNodup => exact hs.cancNodup
  case idsNodup =>
    show (heapIds s ++ [] ++ (it.id :: activeIds s)).Nodup
    have h3 := hs.idsNodup
    have h2 : pendIds s = [it.id] := by simp [pendIds, hpend]
    rw [h2] at h3
    refine List.Perm.nodup ?_ h3
    rw [List.append_assoc, List.append_assoc]
    exact List.Perm.append_left _ (List.Perm.refl _)
  case usedAll =>
    intro id0 h0
    refine hs.usedAll id0 ?_
    rcases h0 with h1 | h1 | h1 | h1 | h1 | h1
    · exact Or.inl h1
    · replace h1 : id0 ∈ ([] : List Nat) := h1
      simp at h1
    · replace h1 : id0 ∈ it.id :: activeIds s := h1
      rcases List.mem_cons.mp h1 with he | hmem2
      · subst he
        exact Or.inr (Or.inl (by simp [pendIds, hpend]))
      · exact Or.inr (Or.inr (Or.inl hmem2))
    · replace h1 : id0 ∈ it.id :: s.invoked := h1
      rcases List.mem_cons.mp h1 with he | hmem2
      · subst he
        exact Or.inr (Or.inl (by simp [pendIds, hpend]))
      · exact Or.inr (Or.inr (Or.inr (Or.inl hmem2)))
    · exact Or.inr (Or.inr (Or.inr (Or.inr (Or.inl h1))))
    · replace h1 : id0 ∈ (updateRec s.results it.id
        (fun rr => { rr with status := Status.processing })).map Prod.fst := h1
      rw [map_fst_updateRec] at h1
      exact Or.inr (Or.inr (Or.inr (Or.inr (Or.inr h1))))
  case invokedNotQueued =>
    intro id0 h0 r' hr'
    replace h0 : id0 ∈ it.id :: s.invoked := h0
    replace hr' : findRec (updateRec s.results it.id
      (fun rr => { rr with status := Status.processing })) id0 = some r' := hr'
    rcases List.mem_cons.mp h0 with he | hmem2
    · subst he
      obtain ⟨r0, _, hre⟩ := findRec_updateRec_inv _ hr'
      rw [hre]
      intro hc; cases hc
    · have hne : id0 ≠ it.id := by
        intro he
        exact hs.pendFresh it hpend (he ▸ hmem2)
      rw [findRec_updateRec_other _ hne] at hr'
      exact hs.invokedNotQueued id0 hmem2 r' hr'
  case procActive =>
    intro kv hkv hst
    replace hkv : kv ∈ updateRec s.results it.id
      (fun rr => { rr with status := Status.processing }) := hkv
    show kv.1 ∈ (it :: s.active).map PQItem.id
    rcases mem_updateRec hkv with h1 | h1
    · exact List.mem_cons_of_mem _ (hs.procActive kv h1.1 hst)
    · obtain ⟨r0, _, hkve⟩ := h1
      rw [hkve]
      exact List.mem_cons_self _ _
  case resNodup =>
    show ((updateRec s.results it.id
      (fun rr => { rr with status := Status.processing })).map Prod.fst).Nodup
    rw [map_fst_updateRec]
    exact hs.resNodup

theorem inv_finish {s : TQ} (hs : Inv s) {it : PQItem} (hact : it ∈ s.active) :
    Inv { s with active := s.active.erase it,
                 results := updateRec s.results it.id (executeTask it) } := by
  have hactId : it.id ∈ activeIds s := List.mem_map.mpr ⟨it, hact, rfl⟩
  constructor
  case conc =>
    show (s.active.erase it).length + pendCount s ≤ s.maxConc
    have h1 : s.active.length + pendCount s ≤ s.maxConc := hs.conc
    have h3 : (s.active.erase it).length ≤ s.active.length :=
      (s.active.erase_sublist it).length_le
    omega
  case heapQueued =>
    intro it' hit' r' hr'
    replace hit' : it' ∈ s.heap := hit'
    replace hr' : findRec (updateRec s.results it.id (executeTask it)) it'.id
      = some r' := hr'
    have hne : it'.id ≠ it.id := heap_active_disjoint hs hit' hactId
    rw [findRec_updateRec_other _ hne] at hr'
    exact hs.heapQueued it' hit' r' hr'
  case pendQueued =>
    intro it' hp r' hr'
    replace hp : s.pending = some it' := hp
    replace hr' : findRec (updateRec s.results it.id (executeTask it)) it'.id
      = some r' := hr'
    have hne : it'.id ≠ it.id := pend_active_disjoint hs hp hactId
    rw [findRec_updateRec_other _ hne] at hr'
    exact hs.pendQueued it' hp r' hr'
  case heapFresh => exact hs.heapFresh
  case pendFresh => exact hs.pendFresh
  case cancNotHeap => exact hs.cancNotHeap
  case cancNodup => exact hs.cancNodup
  case idsNodup =>
    show (heapIds s ++ pendIds s ++ (s.active.erase it).map PQItem.id).Nodup
    refine List.Nodup.sublist ?_ hs.idsNodup
    exact List.Sublist.append_left ((s.active.erase_sublist it).map PQItem.id) _
  case usedAll =>
    intro id0 h0
    refine hs.usedAll id0 ?_
    rcases h0 with h1 | h1 | h1 | h1 | h1 | h1
    · exact Or.inl h1
    · exact Or.inr (Or.inl h1)
    · replace h1 : id0 ∈ (s.active.erase it).map PQItem.id := h1
      exact Or.inr (Or.inr (Or.inl (mem_activeIds_erase h1)))
    · exact Or.inr (Or.inr (Or.inr (Or.inl h1)))
    · exact Or.inr (Or.inr (Or.inr (Or.inr (Or.inl h1))))
    · replace h1 : id0 ∈ (updateRec s.results it.id (executeTask it)).map
        Prod.fst := h1
      rw [map_fst_updateRec] at h1
      exact Or.inr (Or.inr (Or.inr (Or.inr (Or.inr h1))))
  case invokedNotQueued =>
    intro id0 h0 r' hr'
    replace hr' : findRec (updateRec s.results it.id (executeTask it)) id0
      = some r' := hr'
    by_cases hne : id0 = it.id
    · subst hne
      obtain ⟨r0, _, hre⟩ := findRec_updateRec_inv _ hr'
      rw [hre]
      exact executeTask_not_queued it r0
    · rw [findRec_updateRec_other _ hne] at hr'
      exact hs.invokedNotQueued id0 h0 r' hr'
  case procActive =>
    intro kv hkv hst
    replace hkv : kv ∈ updateRec s.results it.id (executeTask it) := hkv
    show kv.1 ∈ (s.active.erase it).map PQItem.id
    rcases mem_updateRec hkv with h1 | h1
    · exact mem_activeIds_erase_of_ne (hs.procActive kv h1.1 hst) h1.2
    · obtain ⟨r0, _, hkve⟩ := h1
      rw [hkve] at hst
      exact absurd hst (executeTask_not_processing it r0)
  case resNodup =>
    show ((updateRec s.results it.id (executeTask it)).map Prod.fst).Nodup
    rw [map_fst_updateRec]
    exact hs.resNodup

theorem inv_cancelHeap {s : TQ} (hs : Inv s) {it : PQItem} (now : Nat)
    (hmem : it ∈ s.heap) :
    Inv { s with heap := s.heap.erase it,
                 results := setCanceled s.results it.id now } := by
  have hEraseSub : ∀ x ∈ s.heap.erase it, x ∈ s.heap :=
    fun x hx => (s.heap.erase_sublist it).subset hx
  have hHeapNodup : (heapIds s).Nodup :=
    ((List.nodup_append.mp ((List.nodup_append.mp hs.idsNodup).1)).1)
  have hNotErase : it ∉ s.heap.erase it := by
    have hnd : s.heap.Nodup := List.Nodup.of_map _ hHeapNodup
    intro hmem2
    have hc1 : s.heap.count it = 1 := List.count_eq_one_of_mem hnd hmem
    have hc2 : (s.heap.erase it).count it = s.heap.count it - 1 :=
      List.count_erase_self it s.heap
    have hc3 : 0 < (s.heap.erase it).count it := List.count_pos_iff.mpr hmem2
    omega
  constructor
  case conc => exact hs.conc
  case heapQueued =>
    intro it' hit' r' hr'
    replace hit' : it' ∈ s.heap.erase it := hit'
    replace hr' : findRec (setCanceled s.results it.id now) it'.id
      = some r' := hr'
    have hne : it'.id ≠ it.id := by
      intro he
      exact hNotErase (heap_id_injective hs (hEraseSub it' hit') hmem he ▸ hit')
    rw [findRec_setCanceled_other now hne] at hr'
    exact hs.heapQueued it' (hEraseSub it' hit') r' hr'
  case pendQueued =>
    intro it' hp r' hr'
    replace hp : s.pending = some it' := hp
    replace hr' : findRec (setCanceled s.results it.id now) it'.id
      = some r' := hr'
    have hne : it'.id ≠ it.id := Ne.symm (heap_pend_disjoint hs hp hmem)
    rw [findRec_setCanceled_other now hne] at hr'
    exact hs.pendQueued it' hp r' hr'
  case heapFresh =>
    intro it' hit'
    replace hit' : it' ∈ s.heap.erase it := hit'
    exact hs.heapFresh it' (hEraseSub it' hit')
  case pendFresh => exact hs.pendFresh
  case cancNotHeap =>
    intro id0 h0 hmem0
    replace hmem0 : id0 ∈ (s.heap.erase it).map PQItem.id := hmem0
    obtain ⟨x, hx, hxid⟩ := List.mem_map.mp hmem0
    exact hs.cancNotHeap id0 h0 (List.mem_map.mpr ⟨x, hEraseSub x hx, hxid⟩)
  case cancNodup => exact hs.cancNodup
  case idsNodup =>
    show ((s.heap.erase it).map PQItem.id ++ pendIds s ++ activeIds s).Nodup
    refine List.Nodup.sublist ?_ hs.idsNodup
    refine List.Sublist.append_right ?_ _
    exact List.Sublist.append_right ((s.heap.erase_sublist it).map PQItem.id) _
  case usedAll =>
    intro id0 h0
    refine hs.usedAll id0 ?_
    rcases h0 with h1 | h1 | h1 | h1 | h1 | h1
    · replace h1 : id0 ∈ (s.heap.erase it).map PQItem.id := h1
      obtain ⟨x, hx, hxid⟩ := List.mem_map.mp h1
      exact Or.inl (List.mem_map.mpr ⟨x, hEraseSub x hx, hxid⟩)
    · exact Or.inr (Or.inl h1)
    · exact Or.inr (Or.inr (Or.inl h1))
    · exact Or.inr (Or.inr (Or.inr (Or.inl h1)))
    · exact Or.inr (Or.inr (Or.inr (Or.inr (Or.inl h1))))
    · replace h1 : id0 ∈ (setCanceled s.results it.id now).map Prod.fst := h1
      rcases mem_map_fst_setCanceled h1 with h2 | h2
      · exact Or.inr (Or.inr (Or.inr (Or.inr (Or.inr h2))))
      · subst h2
        exact Or.inl (List.mem_map.mpr ⟨it, hmem, rfl⟩)
  case invokedNotQueued =>
    intro id0 h0 r' hr'
    replace hr' : findRec (setCanceled s.results it.id now) id0 = some r' := hr'
    have hne : id0 ≠ it.id := by
      intro he
      exact hs.heapFresh it hmem (he ▸ h0)
    rw [findRec_setCanceled_other now hne] at hr'
    exact hs.invokedNotQueued id0 h0 r' hr'
  case procActive =>
    intro kv hkv hst
    replace hkv : kv ∈ setCanceled s.results it.id now := hkv
    show kv.1 ∈ activeIds s
    rcases mem_setCanceled hkv with h1 | h1
    · exact hs.procActive kv h1.1 hst
    · rw [h1.2] at hst; cases hst
  case resNodup => exact resNodup_setCanceled hs it.id now

theorem inv_cancelMark {s : TQ} (hs : Inv s) {id : Nat} {r : Rec}
    (hheap : id ∉ heapIds s)
    (hrec : findRec s.results id = some r) :
    Inv { s with canceledIds := s.canceledIds.insert id } := by
  constructor
  case conc => exact hs.conc
  case heapQueued => exact hs.heapQueued
  case pendQueued => exact hs.pendQueued
  case heapFresh => exact hs.heapFresh
  case pendFresh => exact hs.pendFresh
  case cancNotHeap =>
    intro id0 h0
    replace h0 : id0 ∈ s.canceledIds.insert id := h0
    rcases List.mem_insert_iff.mp h0 with he | hmem
    · subst he; exact hheap
    · exact hs.cancNotHeap id0 hmem
  case cancNodup =>
    show (s.canceledIds.insert id).Nodup
    exact List.Nodup.insert hs.cancNodup
  case idsNodup => exact hs.idsNodup
  case usedAll =>
    intro id0 h0
    refine hs.usedAll id0 ?_
    rcases h0 with h1 | h1 | h1 | h1 | h1 | h1
    · exact Or.inl h1
    · exact Or.inr (Or.inl h1)
    · exact Or.inr (Or.inr (Or.inl h1))
    · exact Or.inr (Or.inr (Or.inr (Or.inl h1)))
    · replace h1 : id0 ∈ s.canceledIds.insert id := h1
      rcases List.mem_insert_iff.mp h1 with he | hmem
      · subst he
        exact Or.inr (Or.inr (Or.inr (Or.inr (Or.inr
          (List.mem_map.mpr ⟨(id0, r), findRec_mem hrec, rfl⟩)))))
      · exact Or.inr (Or.inr (Or.inr (Or.inr (Or.inl hmem))))
    · exact Or.inr (Or.inr (Or.inr (Or.inr (Or.inr h1))))
  case invokedNotQueued => exact hs.invokedNotQueued
  case procActive => exact hs.procActive
  case resNodup => exact hs.resNodup

theorem inv_step {s s' : TQ} (hs : Inv s) (h : Step s s') : Inv s' := by
  cases h with
  | submit it hid hseq => exact inv_submit hs it hid
  | purgeCall m => exact inv_purgeCall hs m
  | popStep it rest hslot hpend hpop => exact inv_popStep hs hslot hpend hpop
  | skipCanceled it now hpend hc => exact inv_skipCanceled hs now hpend
  | dropLost it hpend hc hrec => exact inv_dropLost hs
  | startRun it r hpend hc hrec => exact inv_startRun hs hpend hrec
  | finish it hact => exact inv_finish hs hact
  | cancelHeap it now hmem => exact inv_cancelHeap hs now hmem
  | cancelMark id r hheap hact hrec hst => exact inv_cancelMark hs hheap hrec

theorem inv_reachableFrom {s0 s : TQ} (h0 : Inv s0) (h : ReachableFrom s0 s) :
    Inv s := by
  induction h with
  | refl => exact h0
  | tail _ hstep ih => exact inv_step ih hstep

theorem inv_reachable {maxConc : Nat} {s : TQ} (h : Reachable maxConc s) :
    Inv s :=
  inv_reachableFrom (inv_init maxConc) h

/-! ## Claim C1: priority ordering -/

/-- A job of the spec's four-job priority scenario: priorities [1, 0, 1, 0]
submitted in that order (k is the submission index, which fixes both the
timestamp tick and the sequence number). -/
def exJob (prio : Int) (k : Nat) : PQItem :=
  { prio := prio, created_ts := k, seq := k, id := k,
    outcome := Outcome.ok 0, timeout := none }

/-- The queue contents after submitting priorities [1, 0, 1, 0]. -/
def exampleJobs : List PQItem := [exJob 1 1, exJob 0 2, exJob 1 3, exJob 0 4]

/-- C1: for every set of submitted jobs still queued at evaluation time, the
scheduler drains them in min-first order of (priority, sequence): a job with a
lower priority number submitted after a higher-priority-number job is served
first, and two jobs of equal priority are served in submission order (the heap
key is (prio, created_ts, seq), and created_ts ticks are monotone in the
sequence number because add_task assigns both without suspending); in
particular priorities [1, 0, 1, 0] under max_concurrent=1 drain as
job2, job4, job1, job3. -/
theorem c1_priority_ordering :
    (∀ (l : List PQItem) (a b : PQItem), a ∈ l → b ∈ l →
      (∀ x ∈ l, ∀ y ∈ l, x.seq < y.seq → x.created_ts ≤ y.created_ts) →
      (a.prio < b.prio ∨ (a.prio = b.prio ∧ a.seq < b.seq)) →
      (execOrder l).indexOf a < (execOrder l).indexOf b)
    ∧ execOrder exampleJobs = [exJob 0 2, exJob 0 4, exJob 1 1, exJob 1 3] := by
  constructor
  · intro l a b ha hb hmono hord
    refine execOrder_index_lt ha hb ?_
    rcases hord with h | ⟨hp, hsq⟩
    · exact itemLt_of_prio_lt h
    · exact itemLt_of_prio_eq hp (hmono a ha b hb hsq) hsq
  · decide

/-- Witness for C1: in the two-job queue [job1(prio 1), job2(prio 0)], job2
is served strictly before job1. -/
theorem c1_priority_ordering_witness :
    (execOrder [exJob 1 1, exJob 0 2]).indexOf (exJob 0 2)
      < (execOrder [exJob 1 1, exJob 0 2]).indexOf (exJob 1 1) :=
  c1_priority_ordering.1 [exJob 1 1, exJob 0 2] (exJob 0 2) (exJob 1 1)
    (by decide) (by decide) (by decide) (by decide)

/-! ## Claim C2: concurrency bound -/

/-- Number of tracked records currently reporting processing. -/
def processingCount (s : TQ) : Nat :=
  (s.results.filter (fun kv => decide (kv.2.status = Status.processing))).length

/-- C2: in every reachable state of a running scheduler, the number of jobs
simultaneously in the processing state — equivalently the number of in-flight
execution units in active_tasks — never exceeds max_concurrent_tasks (the
worker waits at the cap before popping), and a slot is freed only by
_execute_task finishing, which always records a terminal state. -/
theorem c2_concurrency_bound :
    (∀ (maxConc : Nat) (s : TQ), Reachable maxConc s →
      s.active.length ≤ s.maxConc ∧ processingCount s ≤ s.active.length)
    ∧ (∀ (it : PQItem) (r : Rec),
        (executeTask it r).status = Status.completed
        ∨ (executeTask it r).status = Status.failed
        ∨ (executeTask it r).status = Status.canceled) := by
  constructor
  · intro maxConc s hreach
    have hinv := inv_reachable hreach
    constructor
    · have := hinv.conc
      omega
    · unfold processingCount
      have hsub : ((s.results.filter
          (fun kv => decide (kv.2.status = Status.processing))).map Prod.fst)
          ⊆ activeIds s := by
        intro id0 h0
        obtain ⟨kv, hkv, hid⟩ := List.mem_map.mp h0
        have h1 := List.mem_filter.mp hkv
        have h2 : kv.2.status = Status.processing := of_decide_eq_true h1.2
        exact hid ▸ hinv.procActive kv h1.1 h2
      have hnd : ((s.results.filter
          (fun kv => decide (kv.2.status = Status.processing))).map Prod.fst).Nodup :=
        List.Nodup.sublist (List.Sublist.map Prod.fst (List.filter_sublist _))
          hinv.resNodup
      have hle := List.Subperm.length_le (List.Nodup.subperm hnd hsub)
      have h3 : ((s.results.filter
          (fun kv => decide (kv.2.status = Status.processing))).map Prod.fst).length
          = (s.results.filter
            (fun kv => decide (kv.2.status = Status.processing))).length :=
        List.length_map _ _
      have h4 : (activeIds s).length = s.active.length := List.length_map _ _
      omega
  · intro it r
    exact executeTask_status it r

/-- Witness for C2 at the initial state of a cap-2 scheduler and at a concrete
finished job. -/
theorem c2_concurrency_bound_witness :
    ((initTQ 2).active.length ≤ (initTQ 2).maxConc
      ∧ processingCount (initTQ 2) ≤ (initTQ 2).active.length)
    ∧ ((executeTask (exJob 1 1) (mkQueued 0)).status = Status.completed
        ∨ (executeTask (exJob 1 1) (mkQueued 0)).status = Status.failed
        ∨ (executeTask (exJob 1 1) (mkQueued 0)).status = Status.canceled) :=
  ⟨c2_concurrency_bound.1 2 (initTQ 2) Relation.ReflTransGen.refl,
   c2_concurrency_bound.2 (exJob 1 1) (mkQueued 0)⟩

/-! ## Claim C4: cancel before start -/

/-- While a job's record is still tracked it shows status canceled; a later
explicit purge may untrack it. -/
def canceledOrUntracked (results : List (Nat × Rec)) (id : Nat) : Prop :=
  match findRec results id with
  | some r => r.status = Status.canceled
  | none => True

theorem canceledOrUntracked_iff {results : List (Nat × Rec)} {id : Nat} :
    canceledOrUntracked results id
      ↔ ∀ r, findRec results id = some r → r.status = Status.canceled := by
  unfold canceledOrUntracked
  cases h : findRec results id with
  | some r =>
    constructor
    · intro h1 r' hr'
      obtain rfl := Option.some.inj hr'
      exact h1
    · intro h1
      exact h1 r rfl
  | none =>
    constructor
    · intro _ r' hr'
      cases hr'
    · intro _
      trivial

/-- A job id the scheduler can no longer start: its id was handed out, its
work closure never ran, it is not among the executing tasks, and its record —
while still tracked — is canceled. -/
def LostJob (id : Nat) (s : TQ) : Prop :=
  id ∈ s.used ∧ id ∉ s.invoked ∧ id ∉ activeIds s
    ∧ (∀ r, findRec s.results id = some r → r.status = Status.canceled)

theorem lostJob_step {s s' : TQ} {id : Nat} (hs : Inv s) (hl : LostJob id s)
    (h : Step s s') : LostJob id s' := by
  obtain ⟨hused, hninv, hnact, hcanc⟩ := hl
  cases h with
  | submit it hid hseq =>
    have hne : id ≠ it.id := fun he => hid (he ▸ hused)
    have hResFst : it.id ∉ s.results.map Prod.fst :=
      fun h2 => hid (hs.usedAll _ (Or.inr (Or.inr (Or.inr (Or.inr (Or.inr h2))))))
    refine ⟨List.mem_cons_of_mem _ hused, hninv, hnact, ?_⟩
    intro r hr
    replace hr : findRec (add_task_results s.results it.id it.created_ts) id
      = some r := hr
    exact hcanc r (findRec_add_task_other hs.resNodup hResFst hne hr)
  | purgeCall m =>
    refine ⟨hused, hninv, hnact, ?_⟩
    intro r hr
    replace hr : findRec (purge_old_results s.results m) id = some r := hr
    exact hcanc r (findRec_purge_some hs.resNodup hr)
  | popStep it rest hslot hpend hpop => exact ⟨hused, hninv, hnact, hcanc⟩
  | skipCanceled it now hpend hc =>
    refine ⟨hused, hninv, hnact, ?_⟩
    intro r hr
    replace hr : findRec (setCanceled s.results it.id now) id = some r := hr
    by_cases hne : id = it.id
    · rw [hne] at hr
      obtain ⟨r0, hr0, hst0⟩ := findRec_setCanceled_self s.results it.id now
      rw [hr0] at hr
      obtain rfl := Option.some.inj hr
      exact hst0
    · rw [findRec_setCanceled_other now hne] at hr
      exact hcanc r hr
  | dropLost it hpend hc hrec => exact ⟨hused, hninv, hnact, hcanc⟩
  | startRun it r0 hpend hc hrec =>
    have hne : id ≠ it.id := by
      intro he
      have hq := hs.pendQueued it hpend r0 hrec
      have hc2 := hcanc r0 (he ▸ hrec)
      rw [hq] at hc2
      cases hc2
    refine ⟨hused, ?_, ?_, ?_⟩
    · show id ∉ it.id :: s.invoked
      intro hmem
      rcases List.mem_cons.mp hmem with he | hmem2
      · exact hne he
      · exact hninv hmem2
    · show id ∉ (it :: s.active).map PQItem.id
      intro hmem
      rcases List.mem_cons.mp hmem with he | hmem2
      · exact hne he
      · exact hnact hmem2
    · intro r hr
      replace hr : findRec (updateRec s.results it.id
        (fun rr => { rr with status := Status.processing })) id = some r := hr
      rw [findRec_updateRec_other _ hne] at hr
      exact hcanc r hr
  | finish it hact2 =>
    have hne : id ≠ it.id := by
      intro he
      exact hnact (he ▸ List.mem_map.mpr ⟨it, hact2, rfl⟩)
    refine ⟨hused, hninv, ?_, ?_⟩
    · show id ∉ (s.active.erase it).map PQItem.id
      intro hmem
      exact hnact (mem_activeIds_erase hmem)
    · intro r hr
      replace hr : findRec (updateRec s.results it.id (executeTask it)) id
        = some r := hr
      rw [findRec_updateRec_other _ hne] at hr
      exact hcanc r hr
  | cancelHeap it now hmem =>
    refine ⟨hused, hninv, hnact, ?_⟩
    intro r hr
    replace hr : findRec (setCanceled s.results it.id now) id = some r := hr
    by_cases hne : id = it.id
    · rw [hne] at hr
      obtain ⟨r0, hr0, hst0⟩ := findRec_setCanceled_self s.results it.id now
      rw [hr0] at hr
      obtain rfl := Option.some.inj hr
      exact hst0
    · rw [findRec_setCanceled_other now hne] at hr
      exact hcanc r hr
  | cancelMark id2 r2 hheap2 hact2 hrec2 hst2 =>
    exact ⟨hused, hninv, hnact, hcanc⟩

theorem lostJob_star {s s2 : TQ} {id : Nat} (hs : Inv s) (hl : LostJob id s)
    (h : ReachableFrom s s2) : LostJob id s2 := by
  induction h with
  | refl => exact hl
  | tail hstar hstep ih => exact lostJob_step (inv_reachableFrom hs hstar) ih hstep

/-- The two ways a job is canceled before its execution starts: cancel removes
it from the heap directly, or — popped but not yet started — the id sits in
the canceled-before-start set and the worker's execution-start check honors
it. -/
inductive CancelBeforeStart : Nat → TQ → TQ → Prop where
  | fromHeap (s : TQ) (it : PQItem) (now : Nat) (hmem : it ∈ s.heap) :
      CancelBeforeStart it.id s
        { s with heap := s.heap.erase it,
                 results := setCanceled s.results it.id now }
  | fromPending (s : TQ) (it : PQItem) (now : Nat)
      (hpend : s.pending = some it) (hc : it.id ∈ s.canceledIds) :
      CancelBeforeStart it.id s
        { s with pending := none,
                 canceledIds := s.canceledIds.erase it.id,
                 results := setCanceled s.results it.id now }

theorem cancelBeforeStart_step {id : Nat} {s s' : TQ}
    (h : CancelBeforeStart id s s') : Step s s' := by
  cases h with
  | fromHeap s it now hmem => exact Step.cancelHeap s it now hmem
  | fromPending s it now hpend hc => exact Step.skipCanceled s it now hpend hc

theorem cancelBeforeStart_lost {id : Nat} {s s' : TQ} (hs : Inv s)
    (h : CancelBeforeStart id s s') : LostJob id s' := by
  cases h with
  | fromHeap s it now hmem =>
    refine ⟨?_, ?_, ?_, ?_⟩
    · exact hs.usedAll _ (Or.inl (List.mem_map.mpr ⟨it, hmem, rfl⟩))
    · exact hs.heapFresh it hmem
    · intro hin
      replace hin : it.id ∈ activeIds s := hin
      exact heap_active_disjoint hs hmem hin rfl
    · intro r hr
      replace hr : findRec (setCanceled s.results it.id now) it.id = some r := hr
      obtain ⟨r0, hr0, hst0⟩ := findRec_setCanceled_self s.results it.id now
      rw [hr0] at hr
      obtain rfl := Option.some.inj hr
      exact hst0
  | fromPending s it now hpend hc =>
    refine ⟨?_, ?_, ?_, ?_⟩
    · exact hs.usedAll _ (Or.inr (Or.inl (by simp [pendIds, hpend])))
    · exact hs.pendFresh it hpend
    · intro hin
      replace hin : it.id ∈ activeIds s := hin
      exact pend_active_disjoint hs hpend hin rfl
    · intro r hr
      replace hr : findRec (setCanceled s.results it.id now) it.id = some r := hr
      obtain ⟨r0, hr0, hst0⟩ := findRec_setCanceled_self s.results it.id now
      rw [hr0] at hr
      obtain rfl := Option.some.inj hr
      exact hst0

/-- C4: a job canceled before its execution starts — whether still in the
priority structure, or already popped but not yet started with its id in the
canceled-before-start set the execution-start step consults — has its record
set to canceled on the spot, its work closure is never invoked from then on,
and the record keeps status canceled for as long as it stays tracked. -/
theorem c4_cancel_before_start :
    ∀ (maxConc : Nat) (s s' s2 : TQ) (id : Nat),
      Reachable maxConc s → CancelBeforeStart id s s' → ReachableFrom s' s2 →
      (findRec s'.results id).map Rec.status = some Status.canceled
      ∧ id ∉ s2.invoked ∧ canceledOrUntracked s2.results id := by
  intro maxConc s s' s2 id hreach hcbs hstar
  have hinv := inv_reachable hreach
  have hinv' : Inv s' := inv_step hinv (cancelBeforeStart_step hcbs)
  have hlost := cancelBeforeStart_lost hinv hcbs
  have hlost2 := lostJob_star hinv' hlost hstar
  refine ⟨?_, hlost2.2.1, canceledOrUntracked_iff.mpr hlost2.2.2.2⟩
  cases hcbs with
  | fromHeap s it now hmem =>
    show (findRec (setCanceled s.results it.id now) it.id).map Rec.status
      = some Status.canceled
    obtain ⟨r0, hr0, hst0⟩ := findRec_setCanceled_self s.results it.id now
    rw [hr0]
    simp [hst0]
  | fromPending s it now hpend hc =>
    show (findRec (setCanceled s.results it.id now) it.id).map Rec.status
      = some Status.canceled
    obtain ⟨r0, hr0, hst0⟩ := findRec_setCanceled_self s.results it.id now
    rw [hr0]
    simp [hst0]

/-- The job of the C4 witness scenario. -/
def w4Job : PQItem :=
  { prio := 0, created_ts := 3, seq := 1, id := 1,
    outcome := Outcome.ok 0, timeout := none }

/-- State after submitting w4Job to a fresh cap-1 scheduler. -/
def w4Mid : TQ :=
  { heap := [w4Job], seqCtr := 1, pending := none, active := [],
    results := [(1, mkQueued 3)], canceledIds := [], invoked := [], used := [1],
    maxConc := 1 }

/-- State after canceling w4Job while it is still queued. -/
def w4End : TQ :=
  { heap := [], seqCtr := 1, pending := none, active := [],
    results := [(1, { status := Status.canceled, created_at := 3,
                      result := none,
                      error := some ErrPayload.canceledMark })],
    canceledIds := [], invoked := [], used := [1], maxConc := 1 }

theorem w4_reach_mid : Reachable 1 w4Mid :=
  Relation.ReflTransGen.tail Relation.ReflTransGen.refl
    (Step.submit (initTQ 1) w4Job (by decide) (by decide))

theorem w4_cbs : CancelBeforeStart 1 w4Mid w4End :=
  CancelBeforeStart.fromHeap w4Mid w4Job 9 (by decide)

/-- Witness for C4: canceling the only queued job of a one-job scheduler. -/
theorem c4_cancel_before_start_witness :
    (findRec w4End.results 1).map Rec.status = some Status.canceled
    ∧ 1 ∉ w4End.invoked ∧ canceledOrUntracked w4End.results 1 :=
  c4_cancel_before_start 1 w4Mid w4End w4End 1 w4_reach_mid w4_cbs
    Relation.ReflTransGen.refl

/-! ## Claim C5: exception isolation -/

/-- First job of the C5 scenario: its body raises an exception (message 77). -/
def c5Job1 : PQItem :=
  { prio := 1, created_ts := 1, seq := 1, id := 1,
    outcome := Outcome.raises 77, timeout := none }

/-- Second job of the C5 scenario: runs normally and returns 9. -/
def c5Job2 : PQItem :=
  { prio := 1, created_ts := 2, seq := 2, id := 2,
    outcome := Outcome.ok 9, timeout := none }

def c5S1 : TQ :=
  { heap := [c5Job1], seqCtr := 1, pending := none, active := [],
    results := [(1, mkQueued 1)], canceledIds := [], invoked := [], used := [1],
    maxConc := 1 }

def c5S2 : TQ :=
  { heap := [c5Job2, c5Job1], seqCtr := 2, pending := none, active := [],
    results := [(1, mkQueued 1), (2, mkQueued 2)], canceledIds := [],
    invoked := [], used := [2, 1], maxConc := 1 }

def c5S3 : TQ :=
  { heap := [c5Job2], seqCtr := 2, pending := some c5Job1, active := [],
    results := [(1, mkQueued 1), (2, mkQueued 2)], canceledIds := [],
    invoked := [], used := [2, 1], maxConc := 1 }

def c5S4 : TQ :=
  { heap := [c5Job2], seqCtr := 2, pending := none, active := [c5Job1],
    results := [(1, { status := Status.processing, created_at := 1,
                      result := none, error := none }),
                (2, mkQueued 2)],
    canceledIds := [], invoked := [1], used := [2, 1], maxConc := 1 }

def c5FailedRec : Rec :=
  { status := Status.failed, created_at := 1, result := none,
    error := some (ErrPayload.msg 77) }

def c5S5 : TQ :=
  { heap := [c5Job2], seqCtr := 2, pending := none, active := [],
    results := [(1, c5FailedRec), (2, mkQueued 2)],
    canceledIds := [], invoked := [1], used := [2, 1], maxConc := 1 }

def c5S6 : TQ :=
  { heap := [], seqCtr := 2, pending := some c5Job2, active := [],
    results := [(1, c5FailedRec), (2, mkQueued 2)],
    canceledIds := [], invoked := [1], used := [2, 1], maxConc := 1 }

def c5S7 : TQ :=
  { heap := [], seqCtr := 2, pending := none, active := [c5Job2],
    results := [(1, c5FailedRec),
                (2, { status := Status.processing, created_at := 2,
                      result := none, error := none })],
    canceledIds := [], invoked := [2, 1], used := [2, 1], maxConc := 1 }

/-- Final state of the C5 scenario: job1 failed with its message preserved,
job2 completed afterwards. -/
def c5Final : TQ :=
  { heap := [], seqCtr := 2, pending := none, active := [],
    results := [(1, c5FailedRec),
                (2, { status := Status.completed, created_at := 2,
                      result := some 9, error := none })],
    canceledIds := [], invoked := [2, 1], used := [2, 1], maxConc := 1 }

theorem c5_trace : Reachable 1 c5Final := by
  have h1 : Step (initTQ 1) c5S1 :=
    Step.submit (initTQ 1) c5Job1 (by decide) (by decide)
  have h2 : Step c5S1 c5S2 :=
    Step.submit c5S1 c5Job2 (by decide) (by decide)
  have h3 : Step c5S2 c5S3 :=
    Step.popStep c5S2 c5Job1 [c5Job2] (by decide) rfl (by decide)
  have h4 : Step c5S3 c5S4 :=
    Step.startRun c5S3 c5Job1 (mkQueued 1) rfl (by decide) (by decide)
  have h5 : Step c5S4 c5S5 :=
    Step.finish c5S4 c5Job1 (by decide)
  have h6 : Step c5S5 c5S6 :=
    Step.popStep c5S5 c5Job2 [] (by decide) rfl (by decide)
  have h7 : Step c5S6 c5S7 :=
    Step.startRun c5S6 c5Job2 (mkQueued 2) rfl (by decide) (by decide)
  have h8 : Step c5S7 c5Final :=
    Step.finish c5S7 c5Job2 (by decide)
  exact ((((((((Relation.ReflTransGen.refl.tail h1).tail h2).tail h3).tail
    h4).tail h5).tail h6).tail h7).tail h8)

/-- C5: a job whose work closure raises finishes as failed with the message
preserved in the error payload, the exception never escapes _execute_task (the
machine's finish step is an ordinary transition and the trace below shows the
next queued job still being served to completion), and a timeout likewise
finishes as failed carrying the timeout marker in the error payload rather
than a distinct terminal status. -/
theorem c5_exception_isolation :
    (∀ (it : PQItem) (m : Nat) (r : Rec), it.outcome = Outcome.raises m →
      (executeTask it r).status = Status.failed
      ∧ (executeTask it r).error = some (ErrPayload.msg m))
    ∧ (∀ (it : PQItem) (r : Rec), it.outcome = Outcome.timesOut →
      (executeTask it r).status = Status.failed
      ∧ (executeTask it r).error = some (ErrPayload.timeoutMark it.timeout))
    ∧ (Reachable 1 c5Final
      ∧ (findRec c5Final.results 1).map Rec.status = some Status.failed
      ∧ (findRec c5Final.results 1).map Rec.error
          = some (some (ErrPayload.msg 77))
      ∧ (findRec c5Final.results 2).map Rec.status = some Status.completed) := by
  refine ⟨?_, ?_, c5_trace, by decide, by decide, by decide⟩
  · intro it m r hout
    unfold executeTask
    rw [hout]
    exact ⟨rfl, rfl⟩
  · intro it r hout
    unfold executeTask
    rw [hout]
    exact ⟨rfl, rfl⟩

/-- Witness for C5 at the concrete raising job of the scenario. -/
theorem c5_exception_isolation_witness :
    (executeTask c5Job1 (mkQueued 1)).status = Status.failed
    ∧ (executeTask c5Job1 (mkQueued 1)).error = some (ErrPayload.msg 77) :=
  c5_exception_isolation.1 c5Job1 77 (mkQueued 1) rfl

/-! ## Retention analysis of purge_old_results -/

theorem length_filter_not_aux (p : Nat × Rec → Bool) (l : List (Nat × Rec)) :
    (l.filter p).length + (l.filter (fun kv => ! p kv)).length = l.length := by
  induction l with
  | nil => rfl
  | cons kv rest ih =>
    cases hp : p kv <;> simp [List.filter_cons, hp] <;> omega

theorem sorted_map_fst_nodup {l : List (Nat × Rec)}
    (hnd : (l.map Prod.fst).Nodup) :
    ((List.insertionSort recLe l).map Prod.fst).Nodup :=
  (((List.perm_insertionSort recLe l).map Prod.fst).nodup_iff).mpr hnd

theorem mem_taken_iff {l : List (Nat × Rec)} {k : Nat}
    (hnd : (l.map Prod.fst).Nodup) {kv : Nat × Rec} (hkv : kv ∈ l) :
    kv.1 ∈ ((List.insertionSort recLe l).take k).map Prod.fst
      ↔ kv ∈ (List.insertionSort recLe l).take k := by
  constructor
  · intro h
    obtain ⟨kv', hkv', hfst⟩ := List.mem_map.mp h
    have hkvs' : kv' ∈ List.insertionSort recLe l :=
      List.take_subset _ _ hkv'
    have hkvl' : kv' ∈ l :=
      (List.perm_insertionSort recLe l).mem_iff.mp hkvs'
    have : kv' = kv := List.inj_on_of_nodup_map hnd hkvl' hkv hfst
    exact this ▸ hkv'
  · intro h
    exact List.mem_map.mpr ⟨kv, h, rfl⟩

theorem filter_in_perm_taken {l : List (Nat × Rec)} {k : Nat}
    (hnd : (l.map Prod.fst).Nodup) :
    List.Perm
      (l.filter (fun kv => decide (kv.1 ∈
        ((List.insertionSort recLe l).take k).map Prod.fst)))
      ((List.insertionSort recLe l).take k) := by
  set sorted := List.insertionSort recLe l with hsorted
  set dropIds := (sorted.take k).map Prod.fst with hdropIds
  have hperm : List.Perm l sorted := (List.perm_insertionSort recLe l).symm
  have h1 : List.Perm (l.filter (fun kv => decide (kv.1 ∈ dropIds)))
      (sorted.filter (fun kv => decide (kv.1 ∈ dropIds))) :=
    hperm.filter _
  refine h1.trans ?_
  have hsplit : sorted = sorted.take k ++ sorted.drop k :=
    (List.take_append_drop k sorted).symm
  have htaken : (sorted.take k).filter (fun kv => decide (kv.1 ∈ dropIds))
      = sorted.take k := by
    rw [List.filter_eq_self]
    intro kv hkv
    exact decide_eq_true (List.mem_map.mpr ⟨kv, hkv, rfl⟩)
  have hrest : (sorted.drop k).filter (fun kv => decide (kv.1 ∈ dropIds)) = [] := by
    rw [List.filter_eq_nil_iff]
    intro kv hkv hdec
    have hmem : kv.1 ∈ dropIds := of_decide_eq_true hdec
    obtain ⟨kv', hkv', hfst⟩ := List.mem_map.mp hmem
    have hnds : (sorted.map Prod.fst).Nodup := sorted_map_fst_nodup hnd
    have hkvs : kv ∈ sorted := by
      rw [hsplit]
      exact List.mem_append.mpr (Or.inr hkv)
    have hkvs' : kv' ∈ sorted := List.take_subset _ _ hkv'
    have heq : kv' = kv := List.inj_on_of_nodup_map hnds hkvs' hkvs hfst
    have hsnd : sorted.Nodup := List.Nodup.of_map _ hnds
    have hdisj := (List.nodup_append.mp (hsplit ▸ hsnd)).2.2
    exact hdisj (heq ▸ hkv') hkv
  have hfilter : sorted.filter (fun kv => decide (kv.1 ∈ dropIds))
      = sorted.take k := by
    conv_lhs => rw [hsplit]
    rw [List.filter_append, htaken, hrest, List.append_nil]
  rw [hfilter]

theorem purge_length {l : List (Nat × Rec)} {m : Nat}
    (hnd : (l.map Prod.fst).Nodup) (hlt : m < l.length) :
    (purge_old_results l m).length = m := by
  unfold purge_old_results
  rw [if_neg (by omega)]
  set dropIds := ((List.insertionSort recLe l).take (l.length - m)).map Prod.fst
    with hdropIds
  have hsum := length_filter_not_aux (fun kv => decide (kv.1 ∈ dropIds)) l
  have hin : (l.filter (fun kv => decide (kv.1 ∈ dropIds))).length
      = l.length - m := by
    have hp := (filter_in_perm_taken (k := l.length - m) hnd).length_eq
    rw [hp, List.length_take, List.length_insertionSort]
    omega
  have hnotEq : (l.filter (fun kv => decide (kv.1 ∉ dropIds)))
      = (l.filter (fun kv => ! decide (kv.1 ∈ dropIds))) := by
    simp only [decide_not]
  rw [hnotEq]
  omega

theorem purge_dropped_older {l : List (Nat × Rec)} {m : Nat}
    (hnd : (l.map Prod.fst).Nodup) (hlt : m < l.length)
    (hinj : ∀ kv1 ∈ l, ∀ kv2 ∈ l,
      kv1.2.created_at = kv2.2.created_at → kv1 = kv2) :
    ∀ kv ∈ l, kv ∉ purge_old_results l m →
      ∀ kv' ∈ purge_old_results l m,
        kv.2.created_at < kv'.2.created_at := by
  intro kv hkv hkvOut kv' hkv'
  set sorted := List.insertionSort recLe l with hsortedDef
  set k := l.length - m with hk
  set dropIds := (sorted.take k).map Prod.fst with hdropIds
  have hpurgeEq : purge_old_results l m
      = l.filter (fun kv => decide (kv.1 ∉ dropIds)) := by
    unfold purge_old_results
    rw [if_neg (by omega)]
  have hsplit : sorted = sorted.take k ++ sorted.drop k :=
    (List.take_append_drop k sorted).symm
  have hnds : (sorted.map Prod.fst).Nodup := sorted_map_fst_nodup hnd
  -- the dropped record sits in the taken prefix
  have hkvTaken : kv ∈ sorted.take k := by
    rw [hpurgeEq] at hkvOut
    have hdec : ¬ (decide (kv.1 ∉ dropIds) = true) := by
      intro hd
      exact hkvOut (List.mem_filter.mpr ⟨hkv, hd⟩)
    have : kv.1 ∈ dropIds := by
      by_contra hcon
      exact hdec (decide_eq_true hcon)
    exact (mem_taken_iff hnd hkv).mp this
  -- the kept record sits in the dropped suffix
  have hkvl' : kv' ∈ l := (hpurgeEq ▸ hkv' : kv' ∈ l.filter _)
    |> fun h => (List.mem_filter.mp h).1
  have hkvNotIds : kv'.1 ∉ dropIds := by
    have h2 := (List.mem_filter.mp (hpurgeEq ▸ hkv' : kv' ∈ l.filter _)).2
    exact of_decide_eq_true h2
  have hkvRest : kv' ∈ sorted.drop k := by
    have hkvs : kv' ∈ sorted :=
      (List.perm_insertionSort recLe l).symm.mem_iff.mp hkvl'
    rw [hsplit] at hkvs
    rcases List.mem_append.mp hkvs with h1 | h1
    · exact absurd ((mem_taken_iff hnd hkvl').mpr h1) hkvNotIds
    · exact h1
  -- sortedness across the split gives a weak inequality
  have hsorted : List.Sorted recLe sorted := List.sorted_insertionSort recLe l
  have hle : recLe kv kv' := by
    have hpw : List.Pairwise recLe (sorted.take k ++ sorted.drop k) :=
      hsplit ▸ hsorted
    exact (List.pairwise_append.mp hpw).2.2 kv hkvTaken kv' hkvRest
  -- strictness from distinct timestamps
  have hne : kv ≠ kv' := by
    intro he
    exact hkvOut (he ▸ hkv')
  have hneCreated : kv.2.created_at ≠ kv'.2.created_at :=
    fun he => hne (hinj kv hkv kv' hkvl' he)
  exact lt_of_le_of_ne hle hneCreated

/-! ## Claims C9 and C10: retention policy -/

/-- C9 (amended): purge_old_results(max_items) retains exactly the most
recently created max_items records — it keeps a sublist of the history, keeps
everything when at most max_items records are tracked, otherwise keeps exactly
max_items records and every dropped record is older-created than every kept
one; however pruning is not purely caller-invoked: add_task itself runs
purge_old_results with max_items=5000 on every call, so the tracked history is
also bounded automatically. -/
theorem c9_retention_policy :
    (∀ (l : List (Nat × Rec)) (m : Nat),
      List.Sublist (purge_old_results l m) l
      ∧ (l.length ≤ m → purge_old_results l m = l))
    ∧ (∀ (l : List (Nat × Rec)) (m : Nat),
      (l.map Prod.fst).Nodup → m < l.length →
      (∀ kv1 ∈ l, ∀ kv2 ∈ l, kv1.2.created_at = kv2.2.created_at → kv1 = kv2) →
      (purge_old_results l m).length = m
      ∧ ∀ kv ∈ l, kv ∉ purge_old_results l m →
          ∀ kv' ∈ purge_old_results l m, kv.2.created_at < kv'.2.created_at)
    ∧ (∀ (l : List (Nat × Rec)) (id ts : Nat),
        add_task_results l id ts
          = purge_old_results (l ++ [(id, mkQueued ts)]) 5000) := by
  refine ⟨?_, ?_, ?_⟩
  · intro l m
    refine ⟨purge_sublist l m, ?_⟩
    intro hle
    unfold purge_old_results
    rw [if_pos hle]
  · intro l m hnd hlt hinj
    exact ⟨purge_length hnd hlt, purge_dropped_older hnd hlt hinj⟩
  · intro l id ts
    rfl

/-- Witness for C9 on a two-record history pruned to one. -/
theorem c9_retention_policy_witness :
    (purge_old_results [(1, mkQueued 5), (2, mkQueued 9)] 1).length = 1
    ∧ add_task_results [] 7 3 = purge_old_results [(7, mkQueued 3)] 5000 :=
  ⟨(c9_retention_policy.2.1 [(1, mkQueued 5), (2, mkQueued 9)] 1
      (by decide) (by decide) (by decide)).1,
   c9_retention_policy.2.2 [] 7 3⟩

/-- The 5001-record history used to exhibit automatic pruning by add_task. -/
def bigHistory : List (Nat × Rec) :=
  (List.range' 0 5001).map (fun i => (i, mkQueued i))

theorem sorted_range_mkQueued :
    ∀ (n s : Nat),
      List.Sorted recLe ((List.range' s n).map (fun i => (i, mkQueued i))) := by
  intro n
  induction n with
  | zero => intro s; simp
  | succ n ih =>
    intro s
    rw [List.range'_succ, List.map_cons, List.sorted_cons]
    constructor
    · intro b hb
      obtain ⟨i, hi, rfl⟩ := List.mem_map.mp hb
      have h1 : s + 1 ≤ i := (List.mem_range'_1.mp hi).1
      show s ≤ i
      omega
    · exact ih (s + 1)

theorem sorted_bigAll :
    List.Sorted recLe (bigHistory ++ [(9999, mkQueued 6000)]) := by
  have hpw : List.Pairwise recLe bigHistory := sorted_range_mkQueued 5001 0
  rw [List.Sorted, List.pairwise_append]
  refine ⟨hpw, by simp, ?_⟩
  intro kv hkv b hb
  obtain ⟨i, hi, rfl⟩ := List.mem_map.mp hkv
  rw [List.mem_singleton.mp hb]
  show i ≤ 6000
  have h2 : i < 0 + 5001 := (List.mem_range'_1.mp hi).2
  omega

/-- C9 counterexample: add_task alone — with no caller invocation of the
prune operation — deletes the oldest tracked record once the history passes
5000 entries, so records do not accumulate without bound and pruning is not
an action the scheduler never performs automatically. -/
theorem c9_counterexample :
    get_task_status bigHistory 0 = StatusView.found (mkQueued 0)
    ∧ get_task_status (add_task_results bigHistory 9999 6000) 0
        = StatusView.not_found := by
  constructor
  · rfl
  · have hlen : (bigHistory ++ [(9999, mkQueued 6000)]).length = 5002 := by
      simp [bigHistory]
    have hsortEq :
        List.insertionSort recLe (bigHistory ++ [(9999, mkQueued 6000)])
          = bigHistory ++ [(9999, mkQueued 6000)] :=
      List.Sorted.insertionSort_eq sorted_bigAll
    have htake : ((bigHistory ++ [(9999, mkQueued 6000)]).take 2)
        = [(0, mkQueued 0), (1, mkQueued 1)] := by
      rw [List.take_append_of_le_length (by simp [bigHistory])]
      rfl
    have hids : (((bigHistory ++ [(9999, mkQueued 6000)]).take
        ((bigHistory ++ [(9999, mkQueued 6000)]).length - 5000)).map Prod.fst)
        = [0, 1] := by
      rw [hlen]
      show (((bigHistory ++ [(9999, mkQueued 6000)]).take 2).map Prod.fst)
        = [0, 1]
      rw [htake]
      rfl
    have hkey : add_task_results bigHistory 9999 6000
        = (bigHistory ++ [(9999, mkQueued 6000)]).filter
            (fun kv => decide (kv.1 ∉ ([0, 1] : List Nat))) := by
      unfold add_task_results purge_old_results
      rw [if_neg (by rw [hlen]; omega)]
      simp only [hsortEq, hids]
    rw [hkey]
    unfold get_task_status
    have hnone : findRec ((bigHistory ++ [(9999, mkQueued 6000)]).filter
        (fun kv => decide (kv.1 ∉ ([0, 1] : List Nat)))) 0 = none := by
      apply findRec_eq_none
      intro kv hkv he
      have h2 := (List.mem_filter.mp hkv).2
      have h3 : kv.1 ∉ ([0, 1] : List Nat) := of_decide_eq_true h2
      exact h3 (he ▸ (by decide : (0 : Nat) ∈ ([0, 1] : List Nat)))
    rw [hnone]

/-- C10 (amended): purge_old_results selects records to drop solely by oldest
created_at across all tracked records, irrespective of status — records of
jobs still queued or processing can be deleted, after which get_task_status
returns the not_found marker for a job that has not yet run; such a job can
then never run, because the worker's record update fails on dequeue and the
job is dropped; and every add_task call triggers this purge with
max_items=5000. -/
theorem c10_purge_ignores_status :
    (∀ (l : List (Nat × Rec)) (m : Nat),
      (l.map Prod.fst).Nodup → m < l.length →
      (∀ kv1 ∈ l, ∀ kv2 ∈ l, kv1.2.created_at = kv2.2.created_at → kv1 = kv2) →
      ∀ kv ∈ l, kv ∉ purge_old_results l m →
        ∀ kv' ∈ purge_old_results l m, kv.2.created_at < kv'.2.created_at)
    ∧ get_task_status (purge_old_results
        [(1, mkQueued 1),
         (2, { status := Status.completed, created_at := 2,
               result := some 0, error := none })] 1) 1
      = StatusView.not_found
    ∧ (∀ (l : List (Nat × Rec)) (id ts : Nat),
        add_task_results l id ts
          = purge_old_results (l ++ [(id, mkQueued ts)]) 5000)
    ∧ (∀ (maxConc : Nat) (s s2 : TQ) (id : Nat),
        Reachable maxConc s → id ∈ s.used → id ∉ s.invoked →
        id ∉ activeIds s → findRec s.results id = none →
        ReachableFrom s s2 → id ∉ s2.invoked) := by
  refine ⟨?_, by decide, fun l id ts => rfl, ?_⟩
  · intro l m hnd hlt hinj
    exact purge_dropped_older hnd hlt hinj
  · intro maxConc s s2 id hreach hused hninv hnact hnone hstar
    have hinv := inv_reachable hreach
    have hlost : LostJob id s := by
      refine ⟨hused, hninv, hnact, ?_⟩
      intro r hr
      rw [hnone] at hr
      cases hr
    exact (lostJob_star hinv hlost hstar).2.1

/-- The job of the C10 counterexample: submitted, then its record is purged
away by an explicit purge_old_results(0) while it still sits in the heap. -/
def c10Job : PQItem :=
  { prio := 1, created_ts := 4, seq := 1, id := 1,
    outcome := Outcome.ok 0, timeout := none }

def c10Mid : TQ :=
  { heap := [c10Job], seqCtr := 1, pending := none, active := [],
    results := [(1, mkQueued 4)], canceledIds := [], invoked := [], used := [1],
    maxConc := 1 }

/-- A reachable state with a job still queued whose record is gone. -/
def c10State : TQ :=
  { heap := [c10Job], seqCtr := 1, pending := none, active := [],
    results := [], canceledIds := [], invoked := [], used := [1],
    maxConc := 1 }

theorem c10_reach : Reachable 1 c10State := by
  have h1 : Step (initTQ 1) c10Mid :=
    Step.submit (initTQ 1) c10Job (by decide) (by decide)
  have h2 : Step c10Mid c10State := Step.purgeCall c10Mid 0
  exact (Relation.ReflTransGen.refl.tail h1).tail h2

/-- The job with this id can never start in any future of this state. -/
def NeverRunsFrom (s : TQ) (id : Nat) : Prop :=
  ∀ s2, ReachableFrom s s2 → id ∉ s2.invoked

/-- C10 counterexample to the parenthetical "(and may still run later)": in
the reachable state where a still-queued job's record has been purged,
get_task_status reports not_found and the job can never run — when the worker
dequeues it, the record update raises and the worker drops it. -/
theorem c10_counterexample :
    Reachable 1 c10State
    ∧ 1 ∈ heapIds c10State
    ∧ get_task_status c10State.results 1 = StatusView.not_found
    ∧ NeverRunsFrom c10State 1 := by
  refine ⟨c10_reach, by decide, rfl, ?_⟩
  intro s2 hstar
  have hinv := inv_reachable c10_reach
  have hlost : LostJob 1 c10State := by
    refine ⟨by decide, by decide, by decide, ?_⟩
    intro r hr
    cases hr
  exact (lostJob_star hinv hlost hstar).2.1

/-- Witness for C10: the concrete purge of a queued record, the add_task
purge equation, and the never-runs conclusion at the counterexample state. -/
theorem c10_purge_ignores_status_witness :
    get_task_status (purge_old_results
        [(1, mkQueued 1),
         (2, { status := Status.completed, created_at := 2,
               result := some 0, error := none })] 1) 1
      = StatusView.not_found
    ∧ add_task_results [] 7 3 = purge_old_results [(7, mkQueued 3)] 5000
    ∧ 1 ∉ c10State.invoked :=
  ⟨c10_purge_ignores_status.2.1,
   c10_purge_ignores_status.2.2.1 [] 7 3,
   c10_purge_ignores_status.2.2.2 1 c10State c10State 1
     c10_reach (by decide) (by decide) (by decide) rfl
     Relation.ReflTransGen.refl⟩

/-! ## AcquisitionManager: _download_direct_stream (app/downloaders.py)

Sizes are in bytes (Nat); the source's megabyte comparisons
`size / (1024*1024) > max_size_mb` are modelled exactly as `size > budget`
with `budget = max_size_mb * 1024 * 1024`.  Validator strings (ETag,
Last-Modified) are opaque Nat tokens.  The network is a script: the HEAD
answer and one event per GET the loop issues — either a response (GetResp)
or a retryable connection-phase failure before any response arrives
(ScriptItem.connFail below). -/

/-- Outcome of the HEAD probe; none models the swallowed probe exception. -/
structure HeadInfo where
  ok : Bool
  contentLength : Option Nat
  acceptRanges : Bool
  etagH : Option Nat
  lastModifiedH : Option Nat
deriving DecidableEq

/-- Scripted behaviour of one GET attempt that got past the connection
phase, i.e. a response arrived.  initFail models the fatal except around
session.get (line 242: any exception there returns the HTTP-init error);
a retryable connection failure raised on entering the response context —
caught by the same except as a mid-stream network failure (line 305) before
the meta save and the .part open — is a separate script event,
ScriptItem.connFail. -/
structure GetResp where
  initFail : Bool
  status : Nat
  contentRangeTotal : Option Nat
  chunks : List Nat
  netFail : Bool
deriving DecidableEq

/-- Ghost record of one GET request the code issued. -/
structure ReqInfo where
  rangeStart : Option Nat
  ifRange : Option Nat
  downloadedAt : Nat
deriving DecidableEq

inductive DlResult
  | success (size : Nat)
  | errTooBig
  | errHttpInit
  | errHttp (code : Nat)
  | errNet
  | errExhausted
  | errNoScript
deriving DecidableEq

/-- In-memory and on-disk state of one _download_direct_stream call.
part/finalFile are the sizes of the files on disk (none = absent);
reqs/sleeps/maxPart are ghost observation fields. -/
structure DlState where
  downloaded : Nat
  total_written : Nat
  part : Option Nat
  metaSaved : Bool
  finalFile : Option Nat
  attempts : Nat
  expected_size : Option Nat
  accept_ranges : Bool
  etag : Option Nat
  last_modified : Option Nat
  allow_resume : Bool
  budget : Nat
  chunkSize : Nat
  reqs : List ReqInfo
  sleeps : List Nat
  maxPart : Nat
deriving DecidableEq

/-- The substate the streaming loop mutates. -/
structure StreamSt where
  downloaded : Nat
  total_written : Nat
  part : Option Nat
  maxPart : Nat
deriving DecidableEq

/-- Stream the body into the .part file: write each (nonempty) chunk, add to
both counters, and the instant total_written exceeds the budget close and
delete the partial file and signal the over-budget abort. -/
def writeChunks (budget : Nat) : List Nat → StreamSt → StreamSt × Bool
  | [], w => (w, false)
  | c :: rest, w =>
    if c = 0 then writeChunks budget rest w
    else
      let newPart := w.part.getD 0 + c
      let w' : StreamSt :=
        { downloaded := w.downloaded + c,
          total_written := w.total_written + c,
          part := some newPart,
          maxPart := max w.maxPart newPart }
      if w'.total_written > budget then ({ w' with part := none }, true)
      else writeChunks budget rest w'

/-- The source's retry bound _RESUME_RETRIES. -/
def RESUME_RETRIES : Nat := 3

inductive AttemptOut
  | fatal (e : DlResult)
  | netErr
  | okDone
deriving DecidableEq

/-- Whether this request carries a Range header (lines 227-233). -/
def rangedReq (st : DlState) : Bool :=
  st.allow_resume && decide (st.downloaded > 0) && st.accept_ranges

/-- Response processing before the body is streamed: save the sidecar meta,
restart from zero when a ranged request is answered with a full 200 response,
take the total size from Content-Range, and open the .part file in ab mode
(ranged, still partial) or wb mode (fresh or restarted). -/
def preStream (g : GetResp) (ranged : Bool) (st1 : DlState) : DlState :=
  let st2 := { st1 with metaSaved := true }
  let st3 := if ranged && decide (g.status = 200) then
      { st2 with part := none, downloaded := 0, total_written := 0 }
    else st2
  let st4 := match g.contentRangeTotal with
    | some t => { st3 with expected_size := some t }
    | none => st3
  if ranged && ! decide (g.status = 200) then
    { st4 with part := some (st4.part.getD 0) }
  else { st4 with part := some 0 }

/-- Stream the body into the open .part file and classify the outcome:
over-budget abort, network failure after the delivered chunks, or a cleanly
consumed response. -/
def streamBody (g : GetResp) (st5 : DlState) : AttemptOut × DlState :=
  let wr := writeChunks st5.budget g.chunks
    { downloaded := st5.downloaded, total_written := st5.total_written,
      part := st5.part, maxPart := st5.maxPart }
  let st6 := { st5 with downloaded := wr.1.downloaded,
                        total_written := wr.1.total_written,
                        part := wr.1.part, maxPart := wr.1.maxPart }
  if wr.2 then (AttemptOut.fatal DlResult.errTooBig, st6)
  else if g.netFail then (AttemptOut.netErr, st6)
  else (AttemptOut.okDone, st6)

/-- One iteration of the download loop body in which the GET delivered a
response: build Range/If-Range from the current offset and the probe's
validator, issue the GET, check the status, then process and stream the
response.  The retryable connection-phase failure (no response, nothing
written) is handled by downloadLoopFull's connFail arm. -/
def runAttempt (g : GetResp) (st0 : DlState) : AttemptOut × DlState :=
  let ranged := rangedReq st0
  let ifr : Option Nat :=
    if ranged then
      match st0.etag with
      | some t => some t
      | none => st0.last_modified
    else none
  let st1 := { st0 with reqs := st0.reqs ++
    [{ rangeStart := if ranged then some st0.downloaded else none,
       ifRange := ifr, downloadedAt := st0.downloaded }] }
  if g.initFail then (AttemptOut.fatal DlResult.errHttpInit, st1)
  else if g.status = 200 ∨ g.status = 206 then
    streamBody g (preStream g ranged st1)
  else (AttemptOut.fatal (DlResult.errHttp g.status), st1)

/-- Clean finish: os.replace the .part onto the final name, report its size,
and delete the sidecar meta. -/
def finalizeDl (st : DlState) : DlResult × DlState :=
  (DlResult.success (st.part.getD 0),
   { st with part := none, finalFile := some (st.part.getD 0),
             metaSaved := false })

/-- The retry loop restricted to scripts in which every attempt's
connection succeeded (one scripted response per iteration); a network
failure retries with linear backoff while attempts stay within the bound,
an incomplete body likewise; a complete body breaks to the rename.
downloadLoopFull below is the loop over the full script alphabet,
including retryable connection-phase failures. -/
def downloadLoop : List GetResp → DlState → DlResult × DlState
  | [], st => (DlResult.errNoScript, st)
  | g :: gs, st =>
    match runAttempt g st with
    | (AttemptOut.fatal e, st') => (e, st')
    | (AttemptOut.netErr, st') =>
      let st2 := { st' with attempts := st'.attempts + 1 }
      if !st2.allow_resume || decide (st2.attempts > RESUME_RETRIES) then
        (DlResult.errNet, st2)
      else
        downloadLoop gs { st2 with sleeps := st2.sleeps ++ [st2.attempts] }
    | (AttemptOut.okDone, st') =>
      if st'.expected_size.isNone
          || decide (st'.downloaded ≥ st'.expected_size.getD 0) then
        finalizeDl st'
      else
        let st2 := { st' with attempts := st'.attempts + 1 }
        if st2.attempts > RESUME_RETRIES then (DlResult.errExhausted, st2)
        else downloadLoop gs { st2 with sleeps := st2.sleeps ++ [st2.attempts] }

/-- Configuration and on-disk state found at entry. -/
structure DlInit where
  initPart : Option Nat
  initMeta : Bool
  allow_resume : Bool
  budget : Nat
  chunkSize : Nat
deriving DecidableEq

/-- State before the HEAD probe: counters seeded from the .part file size. -/
def initDlState (ini : DlInit) : DlState :=
  { downloaded := ini.initPart.getD 0, total_written := ini.initPart.getD 0,
    part := ini.initPart, metaSaved := ini.initMeta, finalFile := none,
    attempts := 0, expected_size := none, accept_ranges := false,
    etag := none, last_modified := none, allow_resume := ini.allow_resume,
    budget := ini.budget, chunkSize := ini.chunkSize,
    reqs := [], sleeps := [], maxPart := ini.initPart.getD 0 }

/-- HEAD probe processing: on a 2xx answer read the declared size — none is
returned (the fail-fast over-budget exit) when it exceeds the budget — and
the Accept-Ranges and validator headers. -/
def applyHead (head : Option HeadInfo) (st : DlState) : Option DlState :=
  match head with
  | none => some st
  | some h =>
    if h.ok then
      match h.contentLength with
      | some n =>
        if n > st.budget then none
        else some { st with expected_size := some n,
                            accept_ranges := h.acceptRanges,
                            etag := h.etagH, last_modified := h.lastModifiedH }
      | none => some { st with accept_ranges := h.acceptRanges,
                               etag := h.etagH,
                               last_modified := h.lastModifiedH }
    else some st

/-- _download_direct_stream: HEAD probe with fail-fast, discard of a
resumable .part when the origin does not honor ranges, then the retry loop. -/
def downloadDirect (head : Option HeadInfo) (script : List GetResp)
    (ini : DlInit) : DlResult × DlState :=
  match applyHead head (initDlState ini) with
  | none => (DlResult.errTooBig, initDlState ini)
  | some st1 =>
    downloadLoop script
      (if decide (st1.downloaded > 0) && ! st1.accept_ranges then
        { st1 with part := none, downloaded := 0, total_written := 0 }
      else st1)

/-! ### Streaming-loop lemmas -/

theorem writeChunks_cons (budget c : Nat) (rest : List Nat) (w : StreamSt) :
    writeChunks budget (c :: rest) w
      = if c = 0 then writeChunks budget rest w
        else
          if w.total_written + c > budget then
            ({ downloaded := w.downloaded + c,
               total_written := w.total_written + c,
               part := none,
               maxPart := max w.maxPart (w.part.getD 0 + c) }, true)
          else writeChunks budget rest
            { downloaded := w.downloaded + c,
              total_written := w.total_written + c,
              part := some (w.part.getD 0 + c),
              maxPart := max w.maxPart (w.part.getD 0 + c) } := rfl

theorem writeChunks_spec (budget chunkSize : Nat) :
    ∀ (cs : List Nat) (w : StreamSt), (∀ c ∈ cs, c ≤ chunkSize) →
      w.part.getD 0 ≤ w.total_written →
      w.maxPart ≤ budget + chunkSize →
      w.total_written ≤ budget →
      ((writeChunks budget cs w).1.maxPart ≤ budget + chunkSize)
      ∧ ((writeChunks budget cs w).2 = true →
          (writeChunks budget cs w).1.part = none)
      ∧ ((writeChunks budget cs w).2 = false →
          (writeChunks budget cs w).1.part.getD 0
            ≤ (writeChunks budget cs w).1.total_written
          ∧ (writeChunks budget cs w).1.total_written ≤ budget
          ∧ (w.part.isSome = true →
              (writeChunks budget cs w).1.part.isSome = true)) := by
  intro cs
  induction cs with
  | nil =>
    intro w hc hpt hmx htw
    refine ⟨hmx, ?_, ?_⟩
    · intro h
      simp [writeChunks] at h
    · intro _
      exact ⟨hpt, htw, fun h => h⟩
  | cons c rest ih =>
    intro w hc hpt hmx htw
    rw [writeChunks_cons]
    by_cases hc0 : c = 0
    · rw [if_pos hc0]
      exact ih w (fun c' h' => hc c' (List.mem_cons_of_mem _ h')) hpt hmx htw
    · rw [if_neg hc0]
      have hcle : c ≤ chunkSize := hc c (List.mem_cons_self _ _)
      by_cases hover : w.total_written + c > budget
      · rw [if_pos hover]
        refine ⟨?_, fun _ => rfl, ?_⟩
        · show max w.maxPart (w.part.getD 0 + c) ≤ budget + chunkSize
          have h1 : w.part.getD 0 + c ≤ budget + chunkSize := by omega
          omega
        · intro h
          simp at h
      · rw [if_neg hover]
        have hres := ih
          { downloaded := w.downloaded + c,
            total_written := w.total_written + c,
            part := some (w.part.getD 0 + c),
            maxPart := max w.maxPart (w.part.getD 0 + c) }
          (fun c' h' => hc c' (List.mem_cons_of_mem _ h'))
          (by show w.part.getD 0 + c ≤ w.total_written + c; omega)
          (by show max w.maxPart (w.part.getD 0 + c) ≤ budget + chunkSize; omega)
          (by show w.total_written + c ≤ budget; omega)
        refine ⟨hres.1, hres.2.1, ?_⟩
        intro hab
        refine ⟨(hres.2.2 hab).1, (hres.2.2 hab).2.1, ?_⟩
        intro _
        exact (hres.2.2 hab).2.2 rfl

theorem writeChunks_ok (budget : Nat) :
    ∀ (cs : List Nat) (w : StreamSt) (p : Nat), w.part = some p →
      w.total_written + cs.sum ≤ budget →
      (writeChunks budget cs w).2 = false
      ∧ (writeChunks budget cs w).1.downloaded = w.downloaded + cs.sum
      ∧ (writeChunks budget cs w).1.total_written = w.total_written + cs.sum
      ∧ (writeChunks budget cs w).1.part = some (p + cs.sum) := by
  intro cs
  induction cs with
  | nil =>
    intro w p hp hsum
    simp [writeChunks, hp]
  | cons c rest ih =>
    intro w p hp hsum
    rw [List.sum_cons] at hsum
    rw [writeChunks_cons]
    by_cases hc0 : c = 0
    · rw [if_pos hc0]
      have hres := ih w p hp (by omega)
      subst hc0
      simpa using hres
    · rw [if_neg hc0]
      have hover : ¬ (w.total_written + c > budget) := by omega
      rw [if_neg hover]
      have hres := ih
        { downloaded := w.downloaded + c,
          total_written := w.total_written + c,
          part := some (w.part.getD 0 + c),
          maxPart := max w.maxPart (w.part.getD 0 + c) }
        (w.part.getD 0 + c) rfl
        (by show w.total_written + c + rest.sum ≤ budget; omega)
      refine ⟨hres.1, ?_, ?_, ?_⟩
      · rw [hres.2.1]
        show w.downloaded + c + rest.sum = w.downloaded + (c + rest.sum)
        omega
      · rw [hres.2.2.1]
        show w.total_written + c + rest.sum = w.total_written + (c + rest.sum)
        omega
      · rw [hres.2.2.2, hp]
        show some (p + c + rest.sum) = some (p + (c + rest.sum))
        rw [Nat.add_assoc]

theorem preStream_spec (g : GetResp) (ranged : Bool) (st1 : DlState)
    (hpt : st1.part.getD 0 ≤ st1.total_written)
    (htw : st1.total_written ≤ st1.budget) :
    ((preStream g ranged st1).budget = st1.budget)
    ∧ ((preStream g ranged st1).chunkSize = st1.chunkSize)
    ∧ ((preStream g ranged st1).allow_resume = st1.allow_resume)
    ∧ ((preStream g ranged st1).accept_ranges = st1.accept_ranges)
    ∧ ((preStream g ranged st1).etag = st1.etag)
    ∧ ((preStream g ranged st1).last_modified = st1.last_modified)
    ∧ ((preStream g ranged st1).attempts = st1.attempts)
    ∧ ((preStream g ranged st1).sleeps = st1.sleeps)
    ∧ ((preStream g ranged st1).finalFile = st1.finalFile)
    ∧ ((preStream g ranged st1).reqs = st1.reqs)
    ∧ ((preStream g ranged st1).metaSaved = true)
    ∧ ((preStream g ranged st1).maxPart = st1.maxPart)
    ∧ ((preStream g ranged st1).part.isSome = true)
    ∧ ((preStream g ranged st1).part.getD 0
        ≤ (preStream g ranged st1).total_written)
    ∧ ((preStream g ranged st1).total_written ≤ st1.budget) := by
  unfold preStream
  cases g.contentRangeTotal <;> split_ifs <;> simp_all

theorem streamBody_spec (g : GetResp) (st5 : DlState)
    (hg : ∀ c ∈ g.chunks, c ≤ st5.chunkSize)
    (hsome : st5.part.isSome = true)
    (hpt : st5.part.getD 0 ≤ st5.total_written)
    (hmx : st5.maxPart ≤ st5.budget + st5.chunkSize)
    (htw : st5.total_written ≤ st5.budget) :
    ((streamBody g st5).2.budget = st5.budget)
    ∧ ((streamBody g st5).2.chunkSize = st5.chunkSize)
    ∧ ((streamBody g st5).2.allow_resume = st5.allow_resume)
    ∧ ((streamBody g st5).2.accept_ranges = st5.accept_ranges)
    ∧ ((streamBody g st5).2.etag = st5.etag)
    ∧ ((streamBody g st5).2.last_modified = st5.last_modified)
    ∧ ((streamBody g st5).2.attempts = st5.attempts)
    ∧ ((streamBody g st5).2.sleeps = st5.sleeps)
    ∧ ((streamBody g st5).2.finalFile = st5.finalFile)
    ∧ ((streamBody g st5).2.reqs = st5.reqs)
    ∧ ((streamBody g st5).2.metaSaved = st5.metaSaved)
    ∧ ((streamBody g st5).2.maxPart ≤ st5.budget + st5.chunkSize)
    ∧ (∀ e, (streamBody g st5).1 = AttemptOut.fatal e →
        e = DlResult.errTooBig)
    ∧ ((streamBody g st5).1 = AttemptOut.fatal DlResult.errTooBig →
        (streamBody g st5).2.part = none)
    ∧ ((streamBody g st5).1 = AttemptOut.netErr
        ∨ (streamBody g st5).1 = AttemptOut.okDone →
        (streamBody g st5).2.part.isSome = true
        ∧ (streamBody g st5).2.part.getD 0
            ≤ (streamBody g st5).2.total_written
        ∧ (streamBody g st5).2.total_written ≤ st5.budget) := by
  have hws := writeChunks_spec st5.budget st5.chunkSize g.chunks
    { downloaded := st5.downloaded, total_written := st5.total_written,
      part := st5.part, maxPart := st5.maxPart } hg hpt hmx htw
  simp only [streamBody]
  split_ifs with hab hnf
  · refine ⟨rfl, rfl, rfl, rfl, rfl, rfl, rfl, rfl, rfl, rfl, rfl, ?_, ?_, ?_, ?_⟩
    · exact hws.1
    · intro e he
      injection he with h2
      exact h2.symm
    · intro _
      exact hws.2.1 hab
    · rintro (h | h) <;> cases h
  · rw [Bool.not_eq_true] at hab
    have hok := hws.2.2 hab
    refine ⟨rfl, rfl, rfl, rfl, rfl, rfl, rfl, rfl, rfl, rfl, rfl, ?_, ?_, ?_, ?_⟩
    · exact hws.1
    · intro e he
      cases he
    · intro he
      cases he
    · intro _
      exact ⟨hok.2.2 hsome, hok.1, hok.2.1⟩
  · rw [Bool.not_eq_true] at hab
    have hok := hws.2.2 hab
    refine ⟨rfl, rfl, rfl, rfl, rfl, rfl, rfl, rfl, rfl, rfl, rfl, ?_, ?_, ?_, ?_⟩
    · exact hws.1
    · intro e he
      cases he
    · intro he
      cases he
    · intro _
      exact ⟨hok.2.2 hsome, hok.1, hok.2.1⟩

theorem runAttempt_spec (g : GetResp) (st : DlState)
    (hg : ∀ c ∈ g.chunks, c ≤ st.chunkSize)
    (hpt : st.part.getD 0 ≤ st.total_written)
    (hmx : st.maxPart ≤ st.budget + st.chunkSize)
    (htw : st.total_written ≤ st.budget) :
    ((runAttempt g st).2.budget = st.budget)
    ∧ ((runAttempt g st).2.chunkSize = st.chunkSize)
    ∧ ((runAttempt g st).2.allow_resume = st.allow_resume)
    ∧ ((runAttempt g st).2.accept_ranges = st.accept_ranges)
    ∧ ((runAttempt g st).2.attempts = st.attempts)
    ∧ ((runAttempt g st).2.sleeps = st.sleeps)
    ∧ ((runAttempt g st).2.finalFile = st.finalFile)
    ∧ ((runAttempt g st).2.reqs = st.reqs ++
        [{ rangeStart := if rangedReq st then some st.downloaded else none,
           ifRange := if rangedReq st then
               (match st.etag with
                | some t => some t
                | none => st.last_modified)
             else none,
           downloadedAt := st.downloaded }])
    ∧ ((runAttempt g st).2.maxPart ≤ st.budget + st.chunkSize)
    ∧ ((runAttempt g st).1 = AttemptOut.fatal DlResult.errTooBig →
        (runAttempt g st).2.part = none
        ∧ (runAttempt g st).2.metaSaved = true)
    ∧ ((runAttempt g st).1 = AttemptOut.netErr
        ∨ (runAttempt g st).1 = AttemptOut.okDone →
        (runAttempt g st).2.part.isSome = true
        ∧ (runAttempt g st).2.part.getD 0 ≤ (runAttempt g st).2.total_written
        ∧ (runAttempt g st).2.total_written ≤ st.budget
        ∧ (runAttempt g st).2.metaSaved = true) := by
  simp only [runAttempt]
  by_cases hif : g.initFail = true
  case pos =>
    rw [if_pos hif]
    refine ⟨rfl, rfl, rfl, rfl, rfl, rfl, rfl, rfl, ?_, ?_, ?_⟩
    · exact hmx
    · intro he
      injection he with h2
      cases h2
    · rintro (h | h) <;> cases h
  case neg =>
  rw [if_neg hif]
  by_cases hst : g.status = 200 ∨ g.status = 206
  case neg =>
    rw [if_neg hst]
    refine ⟨rfl, rfl, rfl, rfl, rfl, rfl, rfl, rfl, ?_, ?_, ?_⟩
    · exact hmx
    · intro he
      injection he with h2
      cases h2
    · rintro (h | h) <;> cases h
  case pos =>
    rw [if_pos hst]
    obtain ⟨hb, hck, har, hac, het, hlm, hat, hsl, hff, hrq, hms, hmp, hps,
      hpt2, htw2⟩ :=
      preStream_spec g (rangedReq st)
        { st with reqs := st.reqs ++
          [{ rangeStart := if rangedReq st then some st.downloaded else none,
             ifRange := if rangedReq st then
                 (match st.etag with
                  | some t => some t
                  | none => st.last_modified)
               else none,
             downloadedAt := st.downloaded }] } hpt htw
    obtain ⟨sb, sck, sar, sac, set2, slm, sat, ssl, sff, srq, sms, smp, sfat,
      stoobig, sok⟩ :=
      streamBody_spec g _
        (by rw [hck]; exact hg) hps hpt2
        (by rw [hmp, hb, hck]; exact hmx)
        (by rw [hb]; exact htw2)
    refine ⟨?_, ?_, ?_, ?_, ?_, ?_, ?_, ?_, ?_, ?_, ?_⟩
    · exact sb.trans hb
    · exact sck.trans hck
    · exact sar.trans har
    · exact sac.trans hac
    · exact sat.trans hat
    · exact ssl.trans hsl
    · exact sff.trans hff
    · exact srq.trans hrq
    · rw [hb, hck] at smp
      exact smp
    · intro he
      exact ⟨stoobig he, sms.trans hms⟩
    · intro hcase
      obtain ⟨h1, h2, h3⟩ := sok hcase
      rw [hb] at h3
      exact ⟨h1, h2, h3, sms.trans hms⟩

/-! ### Hypothesis-free frame lemmas for the retry accounting -/

theorem preStream_frame (g : GetResp) (ranged : Bool) (st1 : DlState) :
    ((preStream g ranged st1).allow_resume = st1.allow_resume)
    ∧ ((preStream g ranged st1).accept_ranges = st1.accept_ranges)
    ∧ ((preStream g ranged st1).attempts = st1.attempts)
    ∧ ((preStream g ranged st1).sleeps = st1.sleeps)
    ∧ ((preStream g ranged st1).finalFile = st1.finalFile)
    ∧ ((preStream g ranged st1).reqs = st1.reqs) := by
  unfold preStream
  cases g.contentRangeTotal <;> split_ifs <;> simp_all

theorem streamBody_frame (g : GetResp) (st5 : DlState) :
    ((streamBody g st5).2.allow_resume = st5.allow_resume)
    ∧ ((streamBody g st5).2.accept_ranges = st5.accept_ranges)
    ∧ ((streamBody g st5).2.attempts = st5.attempts)
    ∧ ((streamBody g st5).2.sleeps = st5.sleeps)
    ∧ ((streamBody g st5).2.finalFile = st5.finalFile)
    ∧ ((streamBody g st5).2.reqs = st5.reqs) := by
  simp only [streamBody]
  split_ifs <;> exact ⟨rfl, rfl, rfl, rfl, rfl, rfl⟩

theorem streamBody_fatal_only (g : GetResp) (st5 : DlState) :
    ∀ e, (streamBody g st5).1 = AttemptOut.fatal e → e = DlResult.errTooBig := by
  simp only [streamBody]
  split_ifs <;> intro e he
  · injection he with h
    exact h.symm
  · simp at he
  · simp at he

theorem runAttempt_frame (g : GetResp) (st : DlState) :
    ((runAttempt g st).2.allow_resume = st.allow_resume)
    ∧ ((runAttempt g st).2.accept_ranges = st.accept_ranges)
    ∧ ((runAttempt g st).2.attempts = st.attempts)
    ∧ ((runAttempt g st).2.sleeps = st.sleeps)
    ∧ ((runAttempt g st).2.finalFile = st.finalFile)
    ∧ ((runAttempt g st).2.reqs = st.reqs ++
        [{ rangeStart := if rangedReq st then some st.downloaded else none,
           ifRange := if rangedReq st then
               (match st.etag with
                | some t => some t
                | none => st.last_modified)
             else none,
           downloadedAt := st.downloaded }]) := by
  simp only [runAttempt]
  by_cases hif : g.initFail = true
  case pos =>
    rw [if_pos hif]
    exact ⟨rfl, rfl, rfl, rfl, rfl, rfl⟩
  case neg =>
  rw [if_neg hif]
  by_cases hst : g.status = 200 ∨ g.status = 206
  case neg =>
    rw [if_neg hst]
    exact ⟨rfl, rfl, rfl, rfl, rfl, rfl⟩
  case pos =>
    rw [if_pos hst]
    obtain ⟨pa, pc, pt, psl, pff, prq⟩ :=
      preStream_frame g (rangedReq st)
        { st with reqs := st.reqs ++
          [{ rangeStart := if rangedReq st then some st.downloaded else none,
             ifRange := if rangedReq st then
                 (match st.etag with
                  | some t => some t
                  | none => st.last_modified)
               else none,
             downloadedAt := st.downloaded }] }
    obtain ⟨sa, sc, sat, ssl, sff, srq⟩ := streamBody_frame g _
    exact ⟨sa.trans pa, sc.trans pc, sat.trans pt, ssl.trans psl,
      sff.trans pff, srq.trans prq⟩

theorem runAttempt_fatal_only (g : GetResp) (st : DlState) :
    ∀ e, (runAttempt g st).1 = AttemptOut.fatal e →
      e = DlResult.errTooBig ∨ e = DlResult.errHttpInit
      ∨ e = DlResult.errHttp g.status := by
  simp only [runAttempt]
  by_cases hif : g.initFail = true
  case pos =>
    rw [if_pos hif]
    intro e he
    injection he with h
    exact Or.inr (Or.inl h.symm)
  case neg =>
  rw [if_neg hif]
  by_cases hst : g.status = 200 ∨ g.status = 206
  case neg =>
    rw [if_neg hst]
    intro e he
    injection he with h
    exact Or.inr (Or.inr h.symm)
  case pos =>
    rw [if_pos hst]
    intro e he
    exact Or.inl (streamBody_fatal_only g _ e he)

/-! ### The retry loop: disk state on every exit path -/

theorem downloadLoop_spec :
    ∀ (gs : List GetResp) (st : DlState),
      (∀ g ∈ gs, ∀ c ∈ g.chunks, c ≤ st.chunkSize) →
      st.part.getD 0 ≤ st.total_written →
      st.maxPart ≤ st.budget + st.chunkSize →
      st.total_written ≤ st.budget →
      ((downloadLoop gs st).2.budget = st.budget)
      ∧ ((downloadLoop gs st).2.chunkSize = st.chunkSize)
      ∧ ((downloadLoop gs st).2.maxPart ≤ st.budget + st.chunkSize)
      ∧ ((downloadLoop gs st).1 = DlResult.errTooBig →
          (downloadLoop gs st).2.part = none
          ∧ (downloadLoop gs st).2.metaSaved = true
          ∧ (downloadLoop gs st).2.finalFile = st.finalFile)
      ∧ (∀ sz, (downloadLoop gs st).1 = DlResult.success sz →
          (downloadLoop gs st).2.finalFile = some sz
          ∧ (downloadLoop gs st).2.part = none
          ∧ (downloadLoop gs st).2.metaSaved = false
          ∧ sz ≤ st.budget)
      ∧ ((downloadLoop gs st).1 = DlResult.errNet
          ∨ (downloadLoop gs st).1 = DlResult.errExhausted →
          (downloadLoop gs st).2.part.isSome = true
          ∧ (downloadLoop gs st).2.metaSaved = true
          ∧ (downloadLoop gs st).2.finalFile = st.finalFile) := by
  intro gs
  induction gs with
  | nil =>
    intro st hg hpt hmx htw
    simp only [downloadLoop]
    refine ⟨trivial, trivial, hmx, ?_, ?_, ?_⟩
    · intro h
      simp at h
    · intro sz h
      simp at h
    · rintro (h | h) <;> simp at h
  | cons g gs ih =>
    intro st hg hpt hmx htw
    have hgc : ∀ c ∈ g.chunks, c ≤ st.chunkSize := hg g (List.mem_cons_self _ _)
    have hgs : ∀ g' ∈ gs, ∀ c ∈ g'.chunks, c ≤ st.chunkSize :=
      fun g' h' => hg g' (List.mem_cons_of_mem _ h')
    obtain ⟨hb, hck, har, hac, hat, hsl, hff, hrq, hmp, htb, hok⟩ :=
      runAttempt_spec g st hgc hpt hmx htw
    have hfat := runAttempt_fatal_only g st
    rcases hr : runAttempt g st with ⟨o, st'⟩
    simp only [hr] at hb hck har hac hat hsl hff hrq hmp htb hok hfat
    cases o with
    | fatal e =>
      simp only [downloadLoop, hr]
      rcases hfat e rfl with he | he | he <;> subst he
      · obtain ⟨hp, hm⟩ := htb rfl
        refine ⟨hb, hck, hmp, ?_, ?_, ?_⟩
        · intro _
          exact ⟨hp, hm, hff⟩
        · intro sz h
          simp at h
        · rintro (h | h) <;> simp at h
      · refine ⟨hb, hck, hmp, ?_, ?_, ?_⟩
        · intro h
          simp at h
        · intro sz h
          simp at h
        · rintro (h | h) <;> simp at h
      · refine ⟨hb, hck, hmp, ?_, ?_, ?_⟩
        · intro h
          simp at h
        · intro sz h
          simp at h
        · rintro (h | h) <;> simp at h
    | netErr =>
      obtain ⟨hps, hgd, htot, hms⟩ := hok (Or.inl rfl)
      simp only [downloadLoop, hr]
      split_ifs with hcond
      · refine ⟨hb, hck, hmp, ?_, ?_, ?_⟩
        · intro h
          simp at h
        · intro sz h
          simp at h
        · intro _
          exact ⟨hps, hms, hff⟩
      · rw [← hb, ← hck, ← hff]
        refine ih _ ?_ ?_ ?_ ?_
        · intro g' h' c hc
          show c ≤ st'.chunkSize
          rw [hck]
          exact hgs g' h' c hc
        · show st'.part.getD 0 ≤ st'.total_written
          exact hgd
        · show st'.maxPart ≤ st'.budget + st'.chunkSize
          rw [hb, hck]
          exact hmp
        · show st'.total_written ≤ st'.budget
          rw [hb]
          exact htot
    | okDone =>
      obtain ⟨hps, hgd, htot, hms⟩ := hok (Or.inr rfl)
      simp only [downloadLoop, hr, finalizeDl]
      split_ifs with hdone hexh
      · refine ⟨hb, hck, hmp, ?_, ?_, ?_⟩
        · intro h
          simp at h
        · intro sz h
          simp only [Prod.fst] at h
          injection h with h2
          subst h2
          refine ⟨rfl, rfl, rfl, le_trans hgd htot⟩
        · rintro (h | h) <;> simp at h
      · refine ⟨hb, hck, hmp, ?_, ?_, ?_⟩
        · intro h
          simp at h
        · intro sz h
          simp at h
        · intro _
          exact ⟨hps, hms, hff⟩
      · rw [← hb, ← hck, ← hff]
        refine ih _ ?_ ?_ ?_ ?_
        · intro g' h' c hc
          show c ≤ st'.chunkSize
          rw [hck]
          exact hgs g' h' c hc
        · show st'.part.getD 0 ≤ st'.total_written
          exact hgd
        · show st'.maxPart ≤ st'.budget + st'.chunkSize
          rw [hb, hck]
          exact hmp
        · show st'.total_written ≤ st'.budget
          rw [hb]
          exact htot

/-! ### The retry loop: request/backoff accounting -/

theorem reqs_resume_step (st : DlState) (har : st.allow_resume = true)
    (hac : st.accept_ranges = true)
    (hreqs : ∀ r ∈ st.reqs, r.downloadedAt > 0 →
      r.rangeStart = some r.downloadedAt) :
    ∀ r ∈ st.reqs ++
      [{ rangeStart := if rangedReq st then some st.downloaded else none,
         ifRange := if rangedReq st then
             (match st.etag with
              | some t => some t
              | none => st.last_modified)
           else none,
         downloadedAt := st.downloaded }],
      r.downloadedAt > 0 → r.rangeStart = some r.downloadedAt := by
  intro r hmem hd
  rcases List.mem_append.mp hmem with hin | hin
  · exact hreqs r hin hd
  · rcases List.mem_singleton.mp hin with rfl
    have hd' : 0 < st.downloaded := hd
    have hran : rangedReq st = true := by
      simp [rangedReq, har, hac, hd']
    show (if rangedReq st then some st.downloaded else none)
      = some st.downloaded
    rw [if_pos hran]

theorem downloadLoop_retry_spec :
    ∀ (gs : List GetResp) (st : DlState),
      st.attempts ≤ RESUME_RETRIES →
      ((downloadLoop gs st).2.allow_resume = st.allow_resume)
      ∧ ((downloadLoop gs st).2.accept_ranges = st.accept_ranges)
      ∧ ((downloadLoop gs st).2.reqs.length
          ≤ st.reqs.length + (RESUME_RETRIES + 1 - st.attempts))
      ∧ (∃ k, (downloadLoop gs st).2.sleeps
          = st.sleeps ++ List.range' (st.attempts + 1) k)
      ∧ (st.allow_resume = true → st.accept_ranges = true →
          (∀ r ∈ st.reqs, r.downloadedAt > 0 →
            r.rangeStart = some r.downloadedAt) →
          ∀ r ∈ (downloadLoop gs st).2.reqs, r.downloadedAt > 0 →
            r.rangeStart = some r.downloadedAt) := by
  intro gs
  induction gs with
  | nil =>
    intro st _
    simp only [downloadLoop]
    refine ⟨trivial, trivial, by omega, ⟨0, by simp⟩, ?_⟩
    intro _ _ hreqs r hmem
    exact hreqs r hmem
  | cons g gs ih =>
    intro st hat3
    have hat3' : st.attempts ≤ 3 := hat3
    obtain ⟨fa, fc, ft, fsl, fff, frq⟩ := runAttempt_frame g st
    rcases hr : runAttempt g st with ⟨o, st'⟩
    simp only [hr] at fa fc ft fsl fff frq
    cases o with
    | fatal e =>
      simp only [downloadLoop, hr]
      refine ⟨fa, fc, ?_, ⟨0, by simp [fsl]⟩, ?_⟩
      · show st'.reqs.length ≤ st.reqs.length + (3 + 1 - st.attempts)
        rw [frq, List.length_append]
        show st.reqs.length + 1 ≤ st.reqs.length + (3 + 1 - st.attempts)
        omega
      · intro har hac hreqs
        show ∀ r ∈ st'.reqs, r.downloadedAt > 0 →
          r.rangeStart = some r.downloadedAt
        simp only [frq]
        exact reqs_resume_step st har hac hreqs
    | netErr =>
      simp only [downloadLoop, hr]
      split_ifs with hcond
      · refine ⟨fa, fc, ?_, ⟨0, by simp [fsl]⟩, ?_⟩
        · show st'.reqs.length ≤ st.reqs.length + (3 + 1 - st.attempts)
          rw [frq, List.length_append]
          show st.reqs.length + 1 ≤ st.reqs.length + (3 + 1 - st.attempts)
          omega
        · intro har hac hreqs
          show ∀ r ∈ st'.reqs, r.downloadedAt > 0 →
            r.rangeStart = some r.downloadedAt
          simp only [frq]
          exact reqs_resume_step st har hac hreqs
      · simp only [Bool.or_eq_true, not_or, Bool.not_eq_true,
          decide_eq_true_eq, not_lt] at hcond
        have hle : st'.attempts + 1 ≤ RESUME_RETRIES := by
          have := hcond.2
          simp only [RESUME_RETRIES] at this ⊢
          omega
        have hrec := ih { st' with attempts := st'.attempts + 1, sleeps := st'.sleeps ++ [st'.attempts + 1] } (by show st'.attempts + 1 ≤ RESUME_RETRIES; exact hle)
        obtain ⟨ia, ic, ilen, ⟨k, isl⟩, ires⟩ := hrec
        refine ⟨ia.trans fa, ic.trans fc, ?_, ?_, ?_⟩
        · refine le_trans ilen ?_
          show st'.reqs.length + (3 + 1 - (st'.attempts + 1))
            ≤ st.reqs.length + (3 + 1 - st.attempts)
          rw [frq, List.length_append, ft]
          show st.reqs.length + 1 + (3 + 1 - (st.attempts + 1))
            ≤ st.reqs.length + (3 + 1 - st.attempts)
          omega
        · refine ⟨k + 1, ?_⟩
          refine isl.trans ?_
          show (st'.sleeps ++ [st'.attempts + 1])
              ++ List.range' (st'.attempts + 1 + 1) k
            = st.sleeps ++ List.range' (st.attempts + 1) (k + 1)
          rw [fsl, ft, List.range'_succ, List.append_assoc,
            List.singleton_append]
        · intro har hac hreqs
          refine ires (fa.trans har) (fc.trans hac) ?_
          show ∀ r ∈ st'.reqs, r.downloadedAt > 0 →
            r.rangeStart = some r.downloadedAt
          simp only [frq]
          exact reqs_resume_step st har hac hreqs
    | okDone =>
      simp only [downloadLoop, hr, finalizeDl]
      split_ifs with hdone hexh
      · refine ⟨fa, fc, ?_, ⟨0, by simp [fsl]⟩, ?_⟩
        · show st'.reqs.length ≤ st.reqs.length + (3 + 1 - st.attempts)
          rw [frq, List.length_append]
          show st.reqs.length + 1 ≤ st.reqs.length + (3 + 1 - st.attempts)
          omega
        · intro har hac hreqs
          show ∀ r ∈ st'.reqs, r.downloadedAt > 0 →
            r.rangeStart = some r.downloadedAt
          simp only [frq]
          exact reqs_resume_step st har hac hreqs
      · refine ⟨fa, fc, ?_, ⟨0, by simp [fsl]⟩, ?_⟩
        · show st'.reqs.length ≤ st.reqs.length + (3 + 1 - st.attempts)
          rw [frq, List.length_append]
          show st.reqs.length + 1 ≤ st.reqs.length + (3 + 1 - st.attempts)
          omega
        · intro har hac hreqs
          show ∀ r ∈ st'.reqs, r.downloadedAt > 0 →
            r.rangeStart = some r.downloadedAt
          simp only [frq]
          exact reqs_resume_step st har hac hreqs
      · have hle : st'.attempts + 1 ≤ RESUME_RETRIES := by
          simp only [RESUME_RETRIES] at hexh ⊢
          omega
        have hrec := ih { st' with attempts := st'.attempts + 1, sleeps := st'.sleeps ++ [st'.attempts + 1] } (by show st'.attempts + 1 ≤ RESUME_RETRIES; exact hle)
        obtain ⟨ia, ic, ilen, ⟨k, isl⟩, ires⟩ := hrec
        refine ⟨ia.trans fa, ic.trans fc, ?_, ?_, ?_⟩
        · refine le_trans ilen ?_
          show st'.reqs.length + (3 + 1 - (st'.attempts + 1))
            ≤ st.reqs.length + (3 + 1 - st.attempts)
          rw [frq, List.length_append, ft]
          show st.reqs.length + 1 + (3 + 1 - (st.attempts + 1))
            ≤ st.reqs.length + (3 + 1 - st.attempts)
          omega
        · refine ⟨k + 1, ?_⟩
          refine isl.trans ?_
          show (st'.sleeps ++ [st'.attempts + 1])
              ++ List.range' (st'.attempts + 1 + 1) k
            = st.sleeps ++ List.range' (st.attempts + 1) (k + 1)
          rw [fsl, ft, List.range'_succ, List.append_assoc,
            List.singleton_append]
        · intro har hac hreqs
          refine ires (fa.trans har) (fc.trans hac) ?_
          show ∀ r ∈ st'.reqs, r.downloadedAt > 0 →
            r.rangeStart = some r.downloadedAt
          simp only [frq]
          exact reqs_resume_step st har hac hreqs

/-! ### HEAD probe and end-to-end disk facts -/

theorem applyHead_some {head : Option HeadInfo} {st st1 : DlState}
    (h : applyHead head st = some st1) :
    st1.budget = st.budget ∧ st1.chunkSize = st.chunkSize
    ∧ st1.part = st.part ∧ st1.downloaded = st.downloaded
    ∧ st1.total_written = st.total_written ∧ st1.maxPart = st.maxPart
    ∧ st1.finalFile = st.finalFile ∧ st1.reqs = st.reqs
    ∧ st1.sleeps = st.sleeps ∧ st1.attempts = st.attempts
    ∧ st1.allow_resume = st.allow_resume ∧ st1.metaSaved = st.metaSaved := by
  cases head with
  | none =>
    simp only [applyHead] at h
    injection h with h2
    subst h2
    exact ⟨rfl, rfl, rfl, rfl, rfl, rfl, rfl, rfl, rfl, rfl, rfl, rfl⟩
  | some hh =>
    simp only [applyHead] at h
    split_ifs at h with hok
    · rcases hcl : hh.contentLength with _ | n
      · simp only [hcl] at h
        injection h with h2
        subst h2
        exact ⟨rfl, rfl, rfl, rfl, rfl, rfl, rfl, rfl, rfl, rfl, rfl, rfl⟩
      · simp only [hcl] at h
        split_ifs at h with hbig
        · injection h with h2
          subst h2
          exact ⟨rfl, rfl, rfl, rfl, rfl, rfl, rfl, rfl, rfl, rfl, rfl, rfl⟩
    · injection h with h2
      subst h2
      exact ⟨rfl, rfl, rfl, rfl, rfl, rfl, rfl, rfl, rfl, rfl, rfl, rfl⟩

theorem downloadDirect_disk (head : Option HeadInfo) (script : List GetResp)
    (ini : DlInit)
    (hch : ∀ g ∈ script, ∀ c ∈ g.chunks, c ≤ ini.chunkSize)
    (hip : ini.initPart.getD 0 ≤ ini.budget) :
    ((downloadDirect head script ini).2.maxPart ≤ ini.budget + ini.chunkSize)
    ∧ (∀ sz, (downloadDirect head script ini).1 = DlResult.success sz →
        (downloadDirect head script ini).2.finalFile = some sz
        ∧ (downloadDirect head script ini).2.part = none
        ∧ (downloadDirect head script ini).2.metaSaved = false
        ∧ sz ≤ ini.budget)
    ∧ ((downloadDirect head script ini).1 = DlResult.errTooBig →
        (downloadDirect head script ini).2.finalFile = none
        ∧ ((downloadDirect head script ini).2.reqs ≠ [] →
            (downloadDirect head script ini).2.part = none
            ∧ (downloadDirect head script ini).2.metaSaved = true))
    ∧ ((downloadDirect head script ini).1 = DlResult.errNet
        ∨ (downloadDirect head script ini).1 = DlResult.errExhausted →
        (downloadDirect head script ini).2.part.isSome = true
        ∧ (downloadDirect head script ini).2.metaSaved = true)
    ∧ (∀ hd, head = some hd → hd.ok = true →
        ∀ n, hd.contentLength = some n → ini.budget < n →
        downloadDirect head script ini
          = (DlResult.errTooBig, initDlState ini)) := by
  rcases happ : applyHead head (initDlState ini) with _ | st1
  · simp only [downloadDirect, happ]
    refine ⟨?_, ?_, ?_, ?_, ?_⟩
    · show ini.initPart.getD 0 ≤ ini.budget + ini.chunkSize
      omega
    · intro sz h
      simp at h
    · intro _
      exact ⟨rfl, fun habs => absurd rfl habs⟩
    · rintro (h | h) <;> simp at h
    · intro hd hhd hok n hcl hbig
      trivial
  · obtain ⟨ab, ack, apt, adl, atw, amp, aff, arq, asl, aat, aar, ams⟩ :=
      applyHead_some happ
    have hb1 : st1.budget = ini.budget := ab
    have hck1 : st1.chunkSize = ini.chunkSize := ack
    have hmp1 : st1.maxPart = ini.initPart.getD 0 := amp
    have hff1 : st1.finalFile = none := aff
    have hpt1 : st1.part = ini.initPart := apt
    have htw1 : st1.total_written = ini.initPart.getD 0 := atw
    simp only [downloadDirect, happ]
    split_ifs with hgate
    · obtain ⟨sb, sck, smp, stb, ssc, sne⟩ :=
        downloadLoop_spec script
          { st1 with part := none, downloaded := 0, total_written := 0 }
          (fun g hgm c hc => by
            show c ≤ st1.chunkSize
            rw [hck1]
            exact hch g hgm c hc)
          (by show (0 : Nat) ≤ 0; exact Nat.le_refl 0)
          (by
            show st1.maxPart ≤ st1.budget + st1.chunkSize
            rw [hmp1, hb1, hck1]
            omega)
          (by
            show (0 : Nat) ≤ st1.budget
            exact Nat.zero_le _)
      refine ⟨?_, ?_, ?_, ?_, ?_⟩
      · refine le_trans smp ?_
        show st1.budget + st1.chunkSize ≤ ini.budget + ini.chunkSize
        rw [hb1, hck1]
      · intro sz h
        obtain ⟨x1, x2, x3, x4⟩ := ssc sz h
        refine ⟨x1, x2, x3, le_trans x4 ?_⟩
        show st1.budget ≤ ini.budget
        rw [hb1]
      · intro h
        obtain ⟨x1, x2, x3⟩ := stb h
        exact ⟨x3.trans hff1, fun _ => ⟨x1, x2⟩⟩
      · intro h
        obtain ⟨x1, x2, _⟩ := sne h
        exact ⟨x1, x2⟩
      · intro hd hhd hok n hcl hbig
        exfalso
        subst hhd
        simp [applyHead, hok, hcl, hbig, initDlState] at happ
    · obtain ⟨sb, sck, smp, stb, ssc, sne⟩ :=
        downloadLoop_spec script st1
          (fun g hgm c hc => by
            rw [hck1]
            exact hch g hgm c hc)
          (by rw [hpt1, htw1])
          (by
            rw [hmp1, hb1, hck1]
            omega)
          (by
            rw [htw1, hb1]
            exact hip)
      refine ⟨?_, ?_, ?_, ?_, ?_⟩
      · refine le_trans smp ?_
        rw [hb1, hck1]
      · intro sz h
        obtain ⟨x1, x2, x3, x4⟩ := ssc sz h
        refine ⟨x1, x2, x3, le_trans x4 ?_⟩
        rw [hb1]
      · intro h
        obtain ⟨x1, x2, x3⟩ := stb h
        exact ⟨x3.trans hff1, fun _ => ⟨x1, x2⟩⟩
      · intro h
        obtain ⟨x1, x2, _⟩ := sne h
        exact ⟨x1, x2⟩
      · intro hd hhd hok n hcl hbig
        exfalso
        subst hhd
        simp [applyHead, hok, hcl, hbig, initDlState] at happ

/-! ### Restart-from-zero on a full answer to a ranged request -/

theorem preStream_restart (g : GetResp) (st1 : DlState)
    (h200 : g.status = 200) :
    ((preStream g true st1).downloaded = 0)
    ∧ ((preStream g true st1).total_written = 0)
    ∧ ((preStream g true st1).part = some 0)
    ∧ ((preStream g true st1).budget = st1.budget)
    ∧ ((preStream g true st1).reqs = st1.reqs)
    ∧ ((preStream g true st1).metaSaved = true) := by
  unfold preStream
  cases g.contentRangeTotal <;> simp [h200]

theorem streamBody_okRun (g : GetResp) (st5 : DlState) (p : Nat)
    (hp : st5.part = some p)
    (hsum : st5.total_written + g.chunks.sum ≤ st5.budget) :
    ((streamBody g st5).2.downloaded = st5.downloaded + g.chunks.sum)
    ∧ ((streamBody g st5).2.total_written
        = st5.total_written + g.chunks.sum)
    ∧ ((streamBody g st5).2.part = some (p + g.chunks.sum))
    ∧ ((streamBody g st5).2.reqs = st5.reqs)
    ∧ (g.netFail = true → (streamBody g st5).1 = AttemptOut.netErr)
    ∧ (g.netFail = false → (streamBody g st5).1 = AttemptOut.okDone) := by
  have hok := writeChunks_ok st5.budget g.chunks
    { downloaded := st5.downloaded, total_written := st5.total_written,
      part := st5.part, maxPart := st5.maxPart } p hp hsum
  simp only [streamBody]
  rw [hok.1]
  rw [if_neg Bool.false_ne_true]
  by_cases hnf : g.netFail = true
  · rw [if_pos hnf]
    refine ⟨hok.2.1, hok.2.2.1, hok.2.2.2, rfl, fun _ => rfl, ?_⟩
    intro hcontra
    cases hnf.symm.trans hcontra
  · rw [if_neg hnf]
    refine ⟨hok.2.1, hok.2.2.1, hok.2.2.2, rfl, ?_, fun _ => rfl⟩
    intro hcontra
    exact absurd hcontra hnf

/-- C6: a resumed ranged request (prior offset n > 0, validator sent as
If-Range) answered with a full 200 response discards all prior progress:
the request carried Range from the old offset, but afterwards the offset,
the running total and the .part file reflect exactly the freshly streamed
bytes, counted from zero. -/
theorem c6_resource_changed_restart (g : GetResp) (st : DlState)
    (har : st.allow_resume = true) (hac : st.accept_ranges = true)
    (hdl : 0 < st.downloaded) (hif : g.initFail = false)
    (hst : g.status = 200) (hsum : g.chunks.sum ≤ st.budget) :
    ((runAttempt g st).2.reqs = st.reqs ++
        [{ rangeStart := some st.downloaded,
           ifRange := (match st.etag with
              | some t => some t
              | none => st.last_modified),
           downloadedAt := st.downloaded }])
    ∧ ((runAttempt g st).2.downloaded = g.chunks.sum)
    ∧ ((runAttempt g st).2.total_written = g.chunks.sum)
    ∧ ((runAttempt g st).2.part = some g.chunks.sum)
    ∧ (g.netFail = false → (runAttempt g st).1 = AttemptOut.okDone) := by
  have hrg : rangedReq st = true := by
    simp [rangedReq, har, hac, hdl]
  have hnif : ¬ (g.initFail = true) := by simp [hif]
  simp only [runAttempt]
  rw [if_neg hnif, if_pos (Or.inl hst), hrg]
  obtain ⟨p1, p2, p3, p4, p5, p6⟩ :=
    preStream_restart g { st with reqs := st.reqs ++ [{ rangeStart := some st.downloaded, ifRange := (match st.etag with | some t => some t | none => st.last_modified), downloadedAt := st.downloaded }] } hst
  obtain ⟨s1, s2, s3, s4, s5, s6⟩ :=
    streamBody_okRun g (preStream g true { st with reqs := st.reqs ++ [{ rangeStart := some st.downloaded, ifRange := (match st.etag with | some t => some t | none => st.last_modified), downloadedAt := st.downloaded }] }) 0 p3 (by
      rw [p2, p4]
      show 0 + g.chunks.sum ≤ st.budget
      omega)
  refine ⟨?_, ?_, ?_, ?_, ?_⟩
  · exact s4.trans p5
  · refine s1.trans ?_
    rw [p1]
    exact Nat.zero_add _
  · refine s2.trans ?_
    rw [p2]
    exact Nat.zero_add _
  · refine s3.trans ?_
    rw [Nat.zero_add]
  · exact s6

/-- Concrete instance for the C6 theorem: a resumed transfer at offset 7
with validator 42 answered by a full 200 carrying 10 fresh bytes. -/
def c6G : GetResp :=
  { initFail := false, status := 200, contentRangeTotal := some 20,
    chunks := [4, 6], netFail := false }

def c6St : DlState :=
  { downloaded := 7, total_written := 7, part := some 7, metaSaved := true,
    finalFile := none, attempts := 1, expected_size := some 20,
    accept_ranges := true, etag := some 42, last_modified := none,
    allow_resume := true, budget := 100, chunkSize := 10,
    reqs := [], sleeps := [], maxPart := 7 }

/-- Witness for C6 at the concrete input c6G/c6St. -/
theorem c6_resource_changed_restart_witness :
    (c6St.allow_resume = true) ∧ (c6St.accept_ranges = true)
    ∧ (0 < c6St.downloaded) ∧ (c6G.initFail = false)
    ∧ (c6G.status = 200) ∧ (c6G.chunks.sum ≤ c6St.budget)
    ∧ (((runAttempt c6G c6St).2.reqs = c6St.reqs ++
        [{ rangeStart := some c6St.downloaded,
           ifRange := (match c6St.etag with
              | some t => some t
              | none => c6St.last_modified),
           downloadedAt := c6St.downloaded }])
    ∧ ((runAttempt c6G c6St).2.downloaded = c6G.chunks.sum)
    ∧ ((runAttempt c6G c6St).2.total_written = c6G.chunks.sum)
    ∧ ((runAttempt c6G c6St).2.part = some c6G.chunks.sum)
    ∧ (c6G.netFail = false → (runAttempt c6G c6St).1 = AttemptOut.okDone)) :=
  ⟨rfl, rfl, by decide, rfl, rfl, by decide,
   c6_resource_changed_restart c6G c6St rfl rfl (by decide) rfl rfl
     (by decide)⟩

/-- C3: the byte budget is enforced: the on-disk partial file never exceeds
max_size_bytes plus one chunk; a finished file never exceeds the budget; an
over-budget exit leaves nothing under the final name and, once any request
was issued (so the abort was mid-stream), no partial file either; and a
probe already declaring a size over the budget fails fast with errTooBig
before any request is made. -/
theorem c3_budget_enforcement (head : Option HeadInfo) (script : List GetResp)
    (ini : DlInit)
    (hch : ∀ g ∈ script, ∀ c ∈ g.chunks, c ≤ ini.chunkSize)
    (hip : ini.initPart.getD 0 ≤ ini.budget) :
    ((downloadDirect head script ini).2.maxPart ≤ ini.budget + ini.chunkSize)
    ∧ (∀ sz, (downloadDirect head script ini).1 = DlResult.success sz →
        sz ≤ ini.budget)
    ∧ ((downloadDirect head script ini).1 = DlResult.errTooBig →
        (downloadDirect head script ini).2.finalFile = none
        ∧ ((downloadDirect head script ini).2.reqs ≠ [] →
            (downloadDirect head script ini).2.part = none))
    ∧ (∀ hd, head = some hd → hd.ok = true →
        ∀ n, hd.contentLength = some n → ini.budget < n →
        downloadDirect head script ini
          = (DlResult.errTooBig, initDlState ini)
        ∧ (initDlState ini).reqs = []) := by
  obtain ⟨h1, h2, h3, _, h5⟩ := downloadDirect_disk head script ini hch hip
  refine ⟨h1, ?_, ?_, ?_⟩
  · intro sz h
    exact (h2 sz h).2.2.2
  · intro h
    exact ⟨(h3 h).1, fun hne => ((h3 h).2 hne).1⟩
  · intro hd hhd hok n hcl hbig
    exact ⟨h5 hd hhd hok n hcl hbig, rfl⟩

/-- Concrete instance for the C3 theorem: a probe declaring 50 bytes against
a 10-byte budget fails fast. -/
def c3Head : HeadInfo :=
  { ok := true, contentLength := some 50, acceptRanges := false,
    etagH := none, lastModifiedH := none }

def c3Ini : DlInit :=
  { initPart := none, initMeta := false, allow_resume := false,
    budget := 10, chunkSize := 4 }

/-- Witness for C3 at the concrete input: the probe-declared size 50 exceeds
the budget 10 and the call fails fast with errTooBig. -/
theorem c3_budget_enforcement_witness :
    (∀ g ∈ ([] : List GetResp), ∀ c ∈ g.chunks, c ≤ c3Ini.chunkSize)
    ∧ (c3Ini.initPart.getD 0 ≤ c3Ini.budget)
    ∧ (downloadDirect (some c3Head) [] c3Ini
        = (DlResult.errTooBig, initDlState c3Ini)) :=
  ⟨fun g hg => absurd hg (List.not_mem_nil g), by decide,
   ((c3_budget_enforcement (some c3Head) [] c3Ini
       (fun g hg => absurd hg (List.not_mem_nil g)) (by decide)).2.2.2
     c3Head rfl rfl 50 rfl (by decide)).1⟩

/-- C7 (amended): at most RESUME_RETRIES + 1 = 4 requests are ever issued;
the recorded backoff multipliers form the linearly increasing run 1, 2, …;
and resuming from the confirmed offset happens exactly in the
resume-supported configuration: when resume is allowed and the origin
advertises range support, every request issued with a nonzero confirmed
offset carries a Range header starting at that offset — without range
support a retry restarts the request without any Range header even though
bytes were already confirmed. -/
theorem c7_retry_backoff_resume (head : Option HeadInfo)
    (script : List GetResp) (ini : DlInit) :
    ((downloadDirect head script ini).2.reqs.length ≤ RESUME_RETRIES + 1)
    ∧ (∃ k, (downloadDirect head script ini).2.sleeps = List.range' 1 k)
    ∧ ((downloadDirect head script ini).2.allow_resume = true →
        (downloadDirect head script ini).2.accept_ranges = true →
        ∀ r ∈ (downloadDirect head script ini).2.reqs,
          r.downloadedAt > 0 → r.rangeStart = some r.downloadedAt) := by
  rcases happ : applyHead head (initDlState ini) with _ | st1
  · simp only [downloadDirect, happ]
    refine ⟨Nat.zero_le _, ⟨0, rfl⟩, ?_⟩
    intro _ _ r hmem
    exact absurd hmem (List.not_mem_nil r)
  · obtain ⟨ab, ack, apt, adl, atw, amp, aff, arq, asl, aat, aar, ams⟩ :=
      applyHead_some happ
    have hrq1 : st1.reqs = [] := arq
    have hsl1 : st1.sleeps = [] := asl
    have hat1 : st1.attempts = 0 := aat
    simp only [downloadDirect, happ]
    split_ifs with hgate
    · obtain ⟨ra, rc, rlen, ⟨k, rsl⟩, rres⟩ :=
        downloadLoop_retry_spec script
          { st1 with part := none, downloaded := 0, total_written := 0 }
          (by
            show st1.attempts ≤ RESUME_RETRIES
            rw [hat1]
            exact Nat.zero_le _)
      refine ⟨?_, ?_, ?_⟩
      · refine le_trans rlen ?_
        show st1.reqs.length + (RESUME_RETRIES + 1 - st1.attempts)
          ≤ RESUME_RETRIES + 1
        rw [hrq1, hat1]
        simp
      · refine ⟨k, rsl.trans ?_⟩
        show st1.sleeps ++ List.range' (st1.attempts + 1) k
          = List.range' 1 k
        rw [hsl1, hat1]
        simp
      · intro har hac
        refine rres (ra.symm.trans har) (rc.symm.trans hac) ?_
        show ∀ r ∈ st1.reqs, r.downloadedAt > 0 →
          r.rangeStart = some r.downloadedAt
        rw [hrq1]
        intro r hmem
        exact absurd hmem (List.not_mem_nil r)
    · obtain ⟨ra, rc, rlen, ⟨k, rsl⟩, rres⟩ :=
        downloadLoop_retry_spec script st1
          (by
            rw [hat1]
            exact Nat.zero_le _)
      refine ⟨?_, ?_, ?_⟩
      · refine le_trans rlen ?_
        rw [hrq1, hat1]
        simp
      · refine ⟨k, rsl.trans ?_⟩
        rw [hsl1, hat1]
        simp
      · intro har hac
        refine rres (ra.symm.trans har) (rc.symm.trans hac) ?_
        rw [hrq1]
        intro r hmem
        exact absurd hmem (List.not_mem_nil r)

/-- C7 counterexample: the origin does not advertise range support, so after
a mid-stream network failure at offset 5 the retry request is issued with no
Range header at all (rangeStart = none though downloadedAt = 5 > 0) — the
transfer does not resume from the last confirmed byte offset. -/
theorem c7_counterexample :
    ((downloadDirect
        (some { ok := true, contentLength := some 10, acceptRanges := false,
                etagH := none, lastModifiedH := none })
        [{ initFail := false, status := 200, contentRangeTotal := some 10,
           chunks := [5], netFail := true },
         { initFail := false, status := 200, contentRangeTotal := none,
           chunks := [10], netFail := false }]
        { initPart := none, initMeta := false, allow_resume := true,
          budget := 100, chunkSize := 10 }).2.reqs
      = [{ rangeStart := none, ifRange := none, downloadedAt := 0 },
         { rangeStart := none, ifRange := none, downloadedAt := 5 }])
    ∧ ((downloadDirect
        (some { ok := true, contentLength := some 10, acceptRanges := false,
                etagH := none, lastModifiedH := none })
        [{ initFail := false, status := 200, contentRangeTotal := some 10,
           chunks := [5], netFail := true },
         { initFail := false, status := 200, contentRangeTotal := none,
           chunks := [10], netFail := false }]
        { initPart := none, initMeta := false, allow_resume := true,
          budget := 100, chunkSize := 10 }).2.sleeps = [1]) := by
  decide

/-! ### The full script alphabet: connection-phase failures included

A GET can also fail with a retryable error while entering the response
context (aiohttp.ClientError / asyncio.TimeoutError raised awaiting the
response), caught by the same except branch as a mid-stream failure
(line 305) — but before the status check, the meta save (line 264) and the
.part open (line 289), so nothing is written to disk on that path. -/

inductive ScriptItem
  | connFail
  | resp (g : GetResp)
deriving DecidableEq

/-- The chunks a script event delivers (none on a connection failure). -/
def itChunks : ScriptItem → List Nat
  | ScriptItem.connFail => []
  | ScriptItem.resp g => g.chunks

/-- The retry loop over the full script alphabet.  A connection-phase
failure still issued the request (Range/If-Range built at lines 225-233)
but saved no meta and opened no file; it lands in the same except branch
as a mid-stream network failure: attempts += 1, stop when resume is off or
attempts exceed the bound, else back off linearly and retry. -/
def downloadLoopFull : List ScriptItem → DlState → DlResult × DlState
  | [], st => (DlResult.errNoScript, st)
  | ScriptItem.connFail :: gs, st =>
    let st1 : DlState := { st with reqs := st.reqs ++
      [{ rangeStart := if rangedReq st then some st.downloaded else none,
         ifRange := if rangedReq st then
             (match st.etag with
              | some t => some t
              | none => st.last_modified)
           else none,
         downloadedAt := st.downloaded }] }
    let st2 := { st1 with attempts := st1.attempts + 1 }
    if !st2.allow_resume || decide (st2.attempts > RESUME_RETRIES) then
      (DlResult.errNet, st2)
    else
      downloadLoopFull gs { st2 with sleeps := st2.sleeps ++ [st2.attempts] }
  | ScriptItem.resp g :: gs, st =>
    match runAttempt g st with
    | (AttemptOut.fatal e, st') => (e, st')
    | (AttemptOut.netErr, st') =>
      let st2 := { st' with attempts := st'.attempts + 1 }
      if !st2.allow_resume || decide (st2.attempts > RESUME_RETRIES) then
        (DlResult.errNet, st2)
      else
        downloadLoopFull gs { st2 with sleeps := st2.sleeps ++ [st2.attempts] }
    | (AttemptOut.okDone, st') =>
      if st'.expected_size.isNone
          || decide (st'.downloaded ≥ st'.expected_size.getD 0) then
        finalizeDl st'
      else
        let st2 := { st' with attempts := st'.attempts + 1 }
        if st2.attempts > RESUME_RETRIES then (DlResult.errExhausted, st2)
        else downloadLoopFull gs { st2 with sleeps := st2.sleeps ++ [st2.attempts] }

/-- _download_direct_stream over the full script alphabet: HEAD probe with
fail-fast, discard of a resumable .part when the origin does not honor
ranges, then the full retry loop. -/
def downloadDirectFull (head : Option HeadInfo) (script : List ScriptItem)
    (ini : DlInit) : DlResult × DlState :=
  match applyHead head (initDlState ini) with
  | none => (DlResult.errTooBig, initDlState ini)
  | some st1 =>
    downloadLoopFull script
      (if decide (st1.downloaded > 0) && ! st1.accept_ranges then
        { st1 with part := none, downloaded := 0, total_written := 0 }
      else st1)

/-- Disk state on every exit path of the full loop.  On the errNet and
errExhausted exits no cleanup happens: either some attempt reached response
processing (then the .part is present and the meta saved), or the staging
files are exactly the ones the loop started with. -/
theorem downloadLoopFull_spec :
    ∀ (gs : List ScriptItem) (st : DlState),
      (∀ it ∈ gs, ∀ c ∈ itChunks it, c ≤ st.chunkSize) →
      st.part.getD 0 ≤ st.total_written →
      st.maxPart ≤ st.budget + st.chunkSize →
      st.total_written ≤ st.budget →
      ((downloadLoopFull gs st).2.budget = st.budget)
      ∧ ((downloadLoopFull gs st).2.chunkSize = st.chunkSize)
      ∧ ((downloadLoopFull gs st).2.maxPart ≤ st.budget + st.chunkSize)
      ∧ ((downloadLoopFull gs st).1 = DlResult.errTooBig →
          (downloadLoopFull gs st).2.part = none
          ∧ (downloadLoopFull gs st).2.metaSaved = true
          ∧ (downloadLoopFull gs st).2.finalFile = st.finalFile)
      ∧ (∀ sz, (downloadLoopFull gs st).1 = DlResult.success sz →
          (downloadLoopFull gs st).2.finalFile = some sz
          ∧ (downloadLoopFull gs st).2.part = none
          ∧ (downloadLoopFull gs st).2.metaSaved = false
          ∧ sz ≤ st.budget)
      ∧ ((downloadLoopFull gs st).1 = DlResult.errNet
          ∨ (downloadLoopFull gs st).1 = DlResult.errExhausted →
          (((downloadLoopFull gs st).2.part.isSome = true
            ∧ (downloadLoopFull gs st).2.metaSaved = true)
           ∨ ((downloadLoopFull gs st).2.part = st.part
              ∧ (downloadLoopFull gs st).2.metaSaved = st.metaSaved))
          ∧ (downloadLoopFull gs st).2.finalFile = st.finalFile) := by
  intro gs
  induction gs with
  | nil =>
    intro st hg hpt hmx htw
    simp only [downloadLoopFull]
    refine ⟨trivial, trivial, hmx, ?_, ?_, ?_⟩
    · intro h
      simp at h
    · intro sz h
      simp at h
    · rintro (h | h) <;> simp at h
  | cons it gs ih =>
    intro st hg hpt hmx htw
    have hgs : ∀ it' ∈ gs, ∀ c ∈ itChunks it', c ≤ st.chunkSize :=
      fun it' h' => hg it' (List.mem_cons_of_mem _ h')
    cases it with
    | connFail =>
      simp only [downloadLoopFull]
      by_cases hcond :
        (!st.allow_resume || decide (st.attempts + 1 > RESUME_RETRIES)) = true
      · rw [if_pos hcond]
        refine ⟨rfl, rfl, hmx, ?_, ?_, ?_⟩
        · intro h
          simp at h
        · intro sz h
          simp at h
        · intro _
          exact ⟨Or.inr ⟨rfl, rfl⟩, rfl⟩
      · rw [if_neg hcond]
        refine ih _ ?_ ?_ ?_ ?_
        · intro it' h' c hc
          show c ≤ st.chunkSize
          exact hgs it' h' c hc
        · show st.part.getD 0 ≤ st.total_written
          exact hpt
        · show st.maxPart ≤ st.budget + st.chunkSize
          exact hmx
        · show st.total_written ≤ st.budget
          exact htw
    | resp g =>
      have hgc : ∀ c ∈ g.chunks, c ≤ st.chunkSize :=
        hg (ScriptItem.resp g) (List.mem_cons_self _ _)
      obtain ⟨hb, hck, har, hac, hat, hsl, hff, hrq, hmp, htb, hok⟩ :=
        runAttempt_spec g st hgc hpt hmx htw
      have hfat := runAttempt_fatal_only g st
      rcases hr : runAttempt g st with ⟨o, st'⟩
      simp only [hr] at hb hck har hac hat hsl hff hrq hmp htb hok hfat
      cases o with
      | fatal e =>
        simp only [downloadLoopFull, hr]
        rcases hfat e rfl with he | he | he <;> subst he
        · obtain ⟨hp, hm⟩ := htb rfl
          refine ⟨hb, hck, hmp, ?_, ?_, ?_⟩
          · intro _
            exact ⟨hp, hm, hff⟩
          · intro sz h
            simp at h
          · rintro (h | h) <;> simp at h
        · refine ⟨hb, hck, hmp, ?_, ?_, ?_⟩
          · intro h
            simp at h
          · intro sz h
            simp at h
          · rintro (h | h) <;> simp at h
        · refine ⟨hb, hck, hmp, ?_, ?_, ?_⟩
          · intro h
            simp at h
          · intro sz h
            simp at h
          · rintro (h | h) <;> simp at h
      | netErr =>
        obtain ⟨hps, hgd, htot, hms⟩ := hok (Or.inl rfl)
        simp only [downloadLoopFull, hr]
        split_ifs with hcond
        · refine ⟨hb, hck, hmp, ?_, ?_, ?_⟩
          · intro h
            simp at h
          · intro sz h
            simp at h
          · intro _
            exact ⟨Or.inl ⟨hps, hms⟩, hff⟩
        · obtain ⟨ib, ick, imp, itb, isc, ine⟩ :=
            ih { st' with attempts := st'.attempts + 1, sleeps := st'.sleeps ++ [st'.attempts + 1] }
              (fun it' h' c hc => by
                show c ≤ st'.chunkSize
                rw [hck]
                exact hgs it' h' c hc)
              (by
                show st'.part.getD 0 ≤ st'.total_written
                exact hgd)
              (by
                show st'.maxPart ≤ st'.budget + st'.chunkSize
                rw [hb, hck]
                exact hmp)
              (by
                show st'.total_written ≤ st'.budget
                rw [hb]
                exact htot)
          refine ⟨ib.trans hb, ick.trans hck, ?_, ?_, ?_, ?_⟩
          · refine le_trans imp (le_of_eq ?_)
            show st'.budget + st'.chunkSize = st.budget + st.chunkSize
            rw [hb, hck]
          · intro h
            obtain ⟨x1, x2, x3⟩ := itb h
            exact ⟨x1, x2, x3.trans hff⟩
          · intro sz h
            obtain ⟨x1, x2, x3, x4⟩ := isc sz h
            exact ⟨x1, x2, x3, le_trans x4 (le_of_eq hb)⟩
          · intro h
            obtain ⟨hd, hf⟩ := ine h
            refine ⟨?_, hf.trans hff⟩
            rcases hd with ⟨a, b⟩ | ⟨a, b⟩
            · exact Or.inl ⟨a, b⟩
            · exact Or.inl ⟨(congrArg Option.isSome a).trans hps, b.trans hms⟩
      | okDone =>
        obtain ⟨hps, hgd, htot, hms⟩ := hok (Or.inr rfl)
        simp only [downloadLoopFull, hr, finalizeDl]
        split_ifs with hdone hexh
        · refine ⟨hb, hck, hmp, ?_, ?_, ?_⟩
          · intro h
            simp at h
          · intro sz h
            simp only [Prod.fst] at h
            injection h with h2
            subst h2
            refine ⟨rfl, rfl, rfl, le_trans hgd htot⟩
          · rintro (h | h) <;> simp at h
        · refine ⟨hb, hck, hmp, ?_, ?_, ?_⟩
          · intro h
            simp at h
          · intro sz h
            simp at h
          · intro _
            exact ⟨Or.inl ⟨hps, hms⟩, hff⟩
        · obtain ⟨ib, ick, imp, itb, isc, ine⟩ :=
            ih { st' with attempts := st'.attempts + 1, sleeps := st'.sleeps ++ [st'.attempts + 1] }
              (fun it' h' c hc => by
                show c ≤ st'.chunkSize
                rw [hck]
                exact hgs it' h' c hc)
              (by
                show st'.part.getD 0 ≤ st'.total_written
                exact hgd)
              (by
                show st'.maxPart ≤ st'.budget + st'.chunkSize
                rw [hb, hck]
                exact hmp)
              (by
                show st'.total_written ≤ st'.budget
                rw [hb]
                exact htot)
          refine ⟨ib.trans hb, ick.trans hck, ?_, ?_, ?_, ?_⟩
          · refine le_trans imp (le_of_eq ?_)
            show st'.budget + st'.chunkSize = st.budget + st.chunkSize
            rw [hb, hck]
          · intro h
            obtain ⟨x1, x2, x3⟩ := itb h
            exact ⟨x1, x2, x3.trans hff⟩
          · intro sz h
            obtain ⟨x1, x2, x3, x4⟩ := isc sz h
            exact ⟨x1, x2, x3, le_trans x4 (le_of_eq hb)⟩
          · intro h
            obtain ⟨hd, hf⟩ := ine h
            refine ⟨?_, hf.trans hff⟩
            rcases hd with ⟨a, b⟩ | ⟨a, b⟩
            · exact Or.inl ⟨a, b⟩
            · exact Or.inl ⟨(congrArg Option.isSome a).trans hps, b.trans hms⟩

/-- End-to-end disk facts over the full script alphabet, including: on the
errNet/errExhausted exits either both staging files are present, or they
are exactly the files found at entry (the entry .part possibly already
discarded as unresumable). -/
theorem downloadDirectFull_disk (head : Option HeadInfo)
    (script : List ScriptItem) (ini : DlInit)
    (hch : ∀ it ∈ script, ∀ c ∈ itChunks it, c ≤ ini.chunkSize)
    (hip : ini.initPart.getD 0 ≤ ini.budget) :
    (∀ sz, (downloadDirectFull head script ini).1 = DlResult.success sz →
        (downloadDirectFull head script ini).2.finalFile = some sz
        ∧ (downloadDirectFull head script ini).2.part = none
        ∧ (downloadDirectFull head script ini).2.metaSaved = false
        ∧ sz ≤ ini.budget)
    ∧ ((downloadDirectFull head script ini).1 = DlResult.errTooBig →
        (downloadDirectFull head script ini).2.finalFile = none
        ∧ ((downloadDirectFull head script ini).2.reqs ≠ [] →
            (downloadDirectFull head script ini).2.part = none
            ∧ (downloadDirectFull head script ini).2.metaSaved = true))
    ∧ ((downloadDirectFull head script ini).1 = DlResult.errNet
        ∨ (downloadDirectFull head script ini).1 = DlResult.errExhausted →
        ((downloadDirectFull head script ini).2.part.isSome = true
          ∧ (downloadDirectFull head script ini).2.metaSaved = true)
        ∨ ((downloadDirectFull head script ini).2.metaSaved = ini.initMeta
           ∧ ((downloadDirectFull head script ini).2.part = ini.initPart
              ∨ (downloadDirectFull head script ini).2.part = none))) := by
  rcases happ : applyHead head (initDlState ini) with _ | st1
  · simp only [downloadDirectFull, happ]
    refine ⟨?_, ?_, ?_⟩
    · intro sz h
      simp at h
    · intro _
      exact ⟨rfl, fun habs => absurd rfl habs⟩
    · rintro (h | h) <;> simp at h
  · obtain ⟨ab, ack, apt, adl, atw, amp, aff, arq, asl, aat, aar, ams⟩ :=
      applyHead_some happ
    have hb1 : st1.budget = ini.budget := ab
    have hck1 : st1.chunkSize = ini.chunkSize := ack
    have hmp1 : st1.maxPart = ini.initPart.getD 0 := amp
    have hff1 : st1.finalFile = none := aff
    have hpt1 : st1.part = ini.initPart := apt
    have htw1 : st1.total_written = ini.initPart.getD 0 := atw
    have hms1 : st1.metaSaved = ini.initMeta := ams
    simp only [downloadDirectFull, happ]
    split_ifs with hgate
    · obtain ⟨sb, sck, smp, stb, ssc, sne⟩ :=
        downloadLoopFull_spec script
          { st1 with part := none, downloaded := 0, total_written := 0 }
          (fun it hit c hc => by
            show c ≤ st1.chunkSize
            rw [hck1]
            exact hch it hit c hc)
          (by show (0 : Nat) ≤ 0; exact Nat.le_refl 0)
          (by
            show st1.maxPart ≤ st1.budget + st1.chunkSize
            rw [hmp1, hb1, hck1]
            omega)
          (by
            show (0 : Nat) ≤ st1.budget
            exact Nat.zero_le _)
      refine ⟨?_, ?_, ?_⟩
      · intro sz h
        obtain ⟨x1, x2, x3, x4⟩ := ssc sz h
        refine ⟨x1, x2, x3, le_trans x4 (le_of_eq hb1)⟩
      · intro h
        obtain ⟨x1, x2, x3⟩ := stb h
        exact ⟨x3.trans hff1, fun _ => ⟨x1, x2⟩⟩
      · intro h
        obtain ⟨hd, _⟩ := sne h
        rcases hd with ⟨a, b⟩ | ⟨a, b⟩
        · exact Or.inl ⟨a, b⟩
        · refine Or.inr ⟨?_, Or.inr a⟩
          refine b.trans ?_
          show st1.metaSaved = ini.initMeta
          exact hms1
    · obtain ⟨sb, sck, smp, stb, ssc, sne⟩ :=
        downloadLoopFull_spec script st1
          (fun it hit c hc => by
            rw [hck1]
            exact hch it hit c hc)
          (by rw [hpt1, htw1])
          (by
            rw [hmp1, hb1, hck1]
            omega)
          (by
            rw [htw1, hb1]
            exact hip)
      refine ⟨?_, ?_, ?_⟩
      · intro sz h
        obtain ⟨x1, x2, x3, x4⟩ := ssc sz h
        refine ⟨x1, x2, x3, le_trans x4 (le_of_eq hb1)⟩
      · intro h
        obtain ⟨x1, x2, x3⟩ := stb h
        exact ⟨x3.trans hff1, fun _ => ⟨x1, x2⟩⟩
      · intro h
        obtain ⟨hd, _⟩ := sne h
        rcases hd with ⟨a, b⟩ | ⟨a, b⟩
        · exact Or.inl ⟨a, b⟩
        · exact Or.inr ⟨b.trans hms1, Or.inl (a.trans hpt1)⟩

/-- C8 (amended): the partial body and the sidecar descriptor are destroyed
together on the success path; on a network-error or exhausted-retries exit
no cleanup happens — either some attempt reached response processing and
both files are present and preserved for a future retry, or every attempt
failed at connection time and the staging files are exactly those found at
entry; but on a mid-stream over-budget abort only the partial body is
deleted while the sidecar descriptor survives, so the descriptor outlives
the body on that exit path. -/
theorem c8_staging_lifecycle (head : Option HeadInfo)
    (script : List ScriptItem) (ini : DlInit)
    (hch : ∀ it ∈ script, ∀ c ∈ itChunks it, c ≤ ini.chunkSize)
    (hip : ini.initPart.getD 0 ≤ ini.budget) :
    (∀ sz, (downloadDirectFull head script ini).1 = DlResult.success sz →
        (downloadDirectFull head script ini).2.part = none
        ∧ (downloadDirectFull head script ini).2.metaSaved = false)
    ∧ ((downloadDirectFull head script ini).1 = DlResult.errNet
        ∨ (downloadDirectFull head script ini).1 = DlResult.errExhausted →
        ((downloadDirectFull head script ini).2.part.isSome = true
          ∧ (downloadDirectFull head script ini).2.metaSaved = true)
        ∨ ((downloadDirectFull head script ini).2.metaSaved = ini.initMeta
           ∧ ((downloadDirectFull head script ini).2.part = ini.initPart
              ∨ (downloadDirectFull head script ini).2.part = none)))
    ∧ ((downloadDirectFull head script ini).1 = DlResult.errTooBig →
        (downloadDirectFull head script ini).2.reqs ≠ [] →
        (downloadDirectFull head script ini).2.part = none
        ∧ (downloadDirectFull head script ini).2.metaSaved = true) := by
  obtain ⟨h1, h2, h3⟩ := downloadDirectFull_disk head script ini hch hip
  refine ⟨?_, h3, ?_⟩
  · intro sz h
    exact ⟨(h1 sz h).2.1, (h1 sz h).2.2.1⟩
  · intro h hne
    exact (h2 h).2 hne

/-- Concrete instance for the C8 theorem: one 16-byte response against a
10-byte budget aborts over budget mid-stream. -/
def c8Script : List ScriptItem :=
  [ScriptItem.resp
    { initFail := false, status := 200, contentRangeTotal := none,
      chunks := [8, 8], netFail := false }]

def c8Ini : DlInit :=
  { initPart := none, initMeta := false, allow_resume := false,
    budget := 10, chunkSize := 8 }

/-- Witness for C8 at the concrete input c8Script/c8Ini. -/
theorem c8_staging_lifecycle_witness :
    (∀ it ∈ c8Script, ∀ c ∈ itChunks it, c ≤ c8Ini.chunkSize)
    ∧ (c8Ini.initPart.getD 0 ≤ c8Ini.budget)
    ∧ ((downloadDirectFull none c8Script c8Ini).1 = DlResult.errTooBig →
        (downloadDirectFull none c8Script c8Ini).2.reqs ≠ [] →
        (downloadDirectFull none c8Script c8Ini).2.part = none
        ∧ (downloadDirectFull none c8Script c8Ini).2.metaSaved = true) :=
  ⟨by decide, by decide,
   (c8_staging_lifecycle none c8Script c8Ini (by decide) (by decide)).2.2⟩

/-- C8 counterexample: the over-budget abort deletes the .part file but
leaves the sidecar .meta.json behind, and a run whose only attempt fails at
connection time exits with the network error having created neither file —
so the two staging files are neither created nor destroyed together on
every exit path. -/
theorem c8_counterexample :
    (((downloadDirectFull none c8Script c8Ini).1 = DlResult.errTooBig)
    ∧ ((downloadDirectFull none c8Script c8Ini).2.part = none)
    ∧ ((downloadDirectFull none c8Script c8Ini).2.metaSaved = true))
    ∧ (((downloadDirectFull none [ScriptItem.connFail] c8Ini).1
        = DlResult.errNet)
    ∧ ((downloadDirectFull none [ScriptItem.connFail] c8Ini).2.part = none)
    ∧ ((downloadDirectFull none [ScriptItem.connFail] c8Ini).2.metaSaved
        = false)) := by
  decide

end AiVera
